import Mathlib

/-!
Verification of the Trove vault core against its specification.

The TypeScript source is shallowly embedded:
* `Uint8Array` byte blobs become `List Nat`;
* JS strings become `List Char`;
* effectful inputs (random nonces, generated UUIDs, timestamps, network
  results) become explicit function arguments;
* recursions whose termination depends on data invariants (the manifest
  parent forest) take an explicit fuel argument and return `Option`.

External library primitives (libsodium's Argon2id / XChaCha20-Poly1305 /
BLAKE2b) are not part of the repository; where needed they are modelled
from the spec as ideal primitives, each marked `Modelled from the spec:`
in its doc comment.  Everything else is translated directly from the
TypeScript sources (client/src/utils/crypto.ts, manifest.ts, chunks.ts,
hooks/useUpload.ts, context/VaultContext.tsx).
-/

namespace Trove

/-- JS `Uint8Array` blobs are modelled as lists of naturals (each element a
byte value). -/
abbrev Bytes := List Nat

/-- A byte blob is well-formed when every element is an actual byte. -/
def ByteValid (l : Bytes) : Prop := ∀ x ∈ l, x < 256

instance : DecidablePred ByteValid := fun l =>
  inferInstanceAs (Decidable (∀ x ∈ l, x < 256))

/-- `crypto_aead_xchacha20poly1305_ietf_NPUBBYTES`: nonce length. -/
def NPUBBYTES : Nat := 24

/-- `crypto_aead_xchacha20poly1305_ietf_ABYTES`: authentication tag length. -/
def ABYTES : Nat := 16

/-- Injective base-257 encoding of a byte list (digits are `b + 1 ∈ [1,256]`,
so leading zero bytes are preserved).  Used only inside the ideal-AEAD model
below to give the authenticator a value that determines its inputs. -/
def encodeBytes : Bytes → Nat
  | [] => 0
  | a :: l => encodeBytes l * 257 + (a + 1)

theorem encodeBytes_injOn {l₁ l₂ : Bytes} (h₁ : ByteValid l₁) (h₂ : ByteValid l₂)
    (h : encodeBytes l₁ = encodeBytes l₂) : l₁ = l₂ := by
  induction l₁ generalizing l₂ with
  | nil =>
    cases l₂ with
    | nil => rfl
    | cons b t => simp only [encodeBytes] at h; omega
  | cons a t ih =>
    cases l₂ with
    | nil => simp only [encodeBytes] at h; omega
    | cons b t' =>
      simp only [encodeBytes] at h
      have ha : a < 256 := h₁ a (by simp)
      have hb : b < 256 := h₂ b (by simp)
      have hab : a = b := by omega
      subst hab
      have htt : encodeBytes t = encodeBytes t' := by omega
      rw [ih (fun x hx => h₁ x (by simp [hx])) (fun x hx => h₂ x (by simp [hx])) htt]

/-- Keystream byte `i` of the model stream cipher for a given key and nonce. -/
def ksByte (key nonce : Bytes) (i : Nat) : Nat :=
  (encodeBytes key + encodeBytes nonce + i) % 256

/-- XOR a byte list against the keystream starting at stream position `i`.
Applying it twice restores the input, as for the real stream cipher. -/
def xorStream (key nonce : Bytes) : Nat → Bytes → Bytes
  | _, [] => []
  | i, b :: rest => (b ^^^ ksByte key nonce i) :: xorStream key nonce (i + 1) rest

theorem xorStream_length (key nonce : Bytes) (i : Nat) (l : Bytes) :
    (xorStream key nonce i l).length = l.length := by
  induction l generalizing i with
  | nil => rfl
  | cons b rest ih => simp [xorStream, ih]

theorem xorStream_xorStream (key nonce : Bytes) (i : Nat) (l : Bytes) :
    xorStream key nonce i (xorStream key nonce i l) = l := by
  induction l generalizing i with
  | nil => rfl
  | cons b rest ih =>
    simp only [xorStream, ih]
    rw [Nat.xor_assoc, Nat.xor_self, Nat.xor_zero]

/-- The single authenticator value of the ideal AEAD: it determines the key,
the nonce and the ciphertext body (via `Nat.pair` and `encodeBytes`). -/
def tagValue (key nonce c : Bytes) : Nat :=
  Nat.pair (encodeBytes key) (Nat.pair (encodeBytes nonce) (encodeBytes c))

/-- The 16-slot tag region of the ideal AEAD: every slot carries the
authenticator value. -/
def aeadTag (key nonce c : Bytes) : Bytes :=
  List.replicate ABYTES (tagValue key nonce c)

/-- Modelled from the spec: `sodium.crypto_aead_xchacha20poly1305_ietf_encrypt`
is an external libsodium primitive (spec §4.2: "run an AEAD cipher
(XChaCha20-Poly1305-class)").  It is modelled as an ideal AEAD: the body is
the plaintext XORed with a key/nonce keystream and the 16-byte tag region
perfectly authenticates (key, nonce, ciphertext).  Returns ciphertext ‖ tag,
as the libsodium combined mode does. -/
def aeadEncrypt (m key nonce : Bytes) : Bytes :=
  xorStream key nonce 0 m ++ aeadTag key nonce (xorStream key nonce 0 m)

/-- Modelled from the spec: `sodium.crypto_aead_xchacha20poly1305_ietf_decrypt`
(external libsodium primitive).  Splits off the trailing 16-byte tag region,
recomputes the authenticator and rejects on any mismatch (or if the input is
shorter than the tag), otherwise inverts the keystream. -/
def aeadDecrypt (c key nonce : Bytes) : Option Bytes :=
  if c.length < ABYTES then none
  else if c.drop (c.length - ABYTES) = aeadTag key nonce (c.take (c.length - ABYTES)) then
    some (xorStream key nonce 0 (c.take (c.length - ABYTES)))
  else none

/-- crypto.ts `encrypt` (part_007 lines 130-155): generate a random 24-byte
nonce, AEAD-encrypt, and prepend the nonce.  The random nonce produced by
`sodium.randombytes_buf` is modelled as the explicit `nonce` argument. -/
def encrypt (plaintext key nonce : Bytes) : Bytes :=
  nonce ++ aeadEncrypt plaintext key nonce

/-- crypto.ts `decrypt` (part_007 lines 161-189): reject blobs shorter than
nonce + tag, split off the 24-byte nonce, and AEAD-decrypt the rest.  The two
`throw new Error` sites become the two `Except.error` messages. -/
def decrypt (blob key : Bytes) : Except String Bytes :=
  if blob.length < NPUBBYTES + ABYTES then
    Except.error "Invalid ciphertext: too short"
  else
    match aeadDecrypt (blob.drop NPUBBYTES) key (blob.take NPUBBYTES) with
    | some m => Except.ok m
    | none => Except.error "Decryption failed: invalid key or corrupted data"

/-- `decrypt` outcomes that the caller observes as an authentication failure. -/
def isAuthError (r : Except String Bytes) : Bool :=
  match r with
  | Except.error _ => true
  | Except.ok _ => false

theorem aeadEncrypt_length (m key nonce : Bytes) :
    (aeadEncrypt m key nonce).length = m.length + ABYTES := by
  simp [aeadEncrypt, aeadTag, xorStream_length, ABYTES]

/-- C1: For every plaintext and every 32-byte key, decrypting an encryption
(made with a fresh 24-byte nonce prepended to the blob) with the same key
returns exactly the original bytes. -/
theorem decrypt_encrypt (m key nonce : Bytes)
    (hkey : key.length = 32) (hnonce : nonce.length = 24) :
    decrypt (encrypt m key nonce) key = Except.ok m := by
  have h24 : NPUBBYTES = 24 := rfl
  have h16 : ABYTES = 16 := rfl
  have hc : (xorStream key nonce 0 m).length = m.length := xorStream_length _ _ _ _
  have hclen : (aeadEncrypt m key nonce).length = m.length + ABYTES :=
    aeadEncrypt_length m key nonce
  have hlen : (encrypt m key nonce).length = m.length + 40 := by
    simp only [encrypt, List.length_append, hclen]; omega
  have htake : (encrypt m key nonce).take NPUBBYTES = nonce := by
    rw [h24, encrypt, List.take_left' hnonce]
  have hdrop : (encrypt m key nonce).drop NPUBBYTES = aeadEncrypt m key nonce := by
    rw [h24, encrypt, List.drop_left' hnonce]
  have hsub : (aeadEncrypt m key nonce).length - ABYTES = (xorStream key nonce 0 m).length := by
    omega
  have hbody : (aeadEncrypt m key nonce).take ((aeadEncrypt m key nonce).length - ABYTES)
      = xorStream key nonce 0 m := by
    rw [hsub, aeadEncrypt, List.take_left]
  have htag : (aeadEncrypt m key nonce).drop ((aeadEncrypt m key nonce).length - ABYTES)
      = aeadTag key nonce (xorStream key nonce 0 m) := by
    rw [hsub, aeadEncrypt, List.drop_left]
  unfold decrypt
  rw [if_neg (by omega)]
  rw [hdrop, htake]
  unfold aeadDecrypt
  rw [if_neg (by omega), hbody, htag, if_pos rfl, xorStream_xorStream]

/-- Closed-input check that the hypotheses of `decrypt_encrypt` are
satisfiable: a concrete 3-byte plaintext, 32-byte key and 24-byte nonce. -/
theorem decrypt_encrypt_witness :
    (List.replicate 32 7 : Bytes).length = 32 ∧
    (List.replicate 24 3 : Bytes).length = 24 ∧
    decrypt (encrypt [1, 2, 3] (List.replicate 32 7) (List.replicate 24 3))
      (List.replicate 32 7) = Except.ok [1, 2, 3] :=
  ⟨by decide, by decide,
    decrypt_encrypt [1, 2, 3] (List.replicate 32 7) (List.replicate 24 3)
      (by decide) (by decide)⟩

/-- The nonce prefix of a wire blob (`decrypt`'s `nonce` slice). -/
def noncePart (blob : Bytes) : Bytes := blob.take NPUBBYTES

/-- The ciphertext+tag remainder of a wire blob (`decrypt`'s `ciphertext`
slice). -/
def cipherPart (blob : Bytes) : Bytes := blob.drop NPUBBYTES

/-- The ciphertext body of a wire blob (everything between nonce and tag). -/
def bodyPart (blob : Bytes) : Bytes :=
  (cipherPart blob).take ((cipherPart blob).length - ABYTES)

/-- The trailing 16-byte tag region of a wire blob. -/
def storedTag (blob : Bytes) : Bytes :=
  (cipherPart blob).drop ((cipherPart blob).length - ABYTES)

/-- The AEAD tag check fails: the stored tag region does not match the
authenticator recomputed from the key, the nonce and the body. -/
def TagCheckFails (blob key : Bytes) : Prop :=
  storedTag blob ≠ aeadTag key (noncePart blob) (bodyPart blob)

/-- Flip bit `b` of the byte at offset `j` inside the trailing tag region of a
blob. -/
def flipTagBit (blob : Bytes) (j b : Nat) : Bytes :=
  blob.set (blob.length - ABYTES + j)
    ((blob.getD (blob.length - ABYTES + j) 0) ^^^ 2 ^ b)

theorem set_append_right {α : Type} (l₁ l₂ : List α) (i : Nat) (x : α) :
    (l₁ ++ l₂).set (l₁.length + i) x = l₁ ++ l₂.set i x := by
  induction l₁ with
  | nil => simp
  | cons a t ih => simp [List.set, Nat.succ_add, ih]

theorem getD_append_right {α : Type} (l₁ l₂ : List α) (i : Nat) (d : α) :
    (l₁ ++ l₂).getD (l₁.length + i) d = l₂.getD i d := by
  induction l₁ with
  | nil => simp
  | cons a t ih => simpa [Nat.succ_add] using ih

theorem getD_set_self {α : Type} (l : List α) (j : Nat) (x d : α)
    (h : j < l.length) : (l.set j x).getD j d = x := by
  induction l generalizing j with
  | nil => simp at h
  | cons a t ih =>
    cases j with
    | zero => rfl
    | succ k => simpa using ih k (by simpa using h)

theorem getD_replicate_self {α : Type} (n j : Nat) (x d : α) (h : j < n) :
    (List.replicate n x).getD j d = x := by
  induction n generalizing j with
  | zero => omega
  | succ k ih =>
    cases j with
    | zero => rfl
    | succ i => simpa [List.replicate] using ih i (by omega)

theorem xor_pow_ne (t b : Nat) : t ^^^ 2 ^ b ≠ t := by
  intro h
  have h2 : t ^^^ (t ^^^ 2 ^ b) = t ^^^ t := by rw [h]
  rw [← Nat.xor_assoc, Nat.xor_self, Nat.zero_xor] at h2
  exact absurd h2 (Nat.pos_iff_ne_zero.mp (Nat.two_pow_pos b))

theorem replicate_tag_inj {a b : Nat} (h : List.replicate ABYTES a = List.replicate ABYTES b) :
    a = b := by
  have : a :: List.replicate 15 a = b :: List.replicate 15 b := h
  exact (List.cons.injEq _ _ _ _ ▸ this).1

/-- How `decrypt` splits a well-length blob: the generic take/drop facts used
by several claims below. -/
theorem encrypt_parts (m key nonce : Bytes) (hnonce : nonce.length = 24) :
    noncePart (encrypt m key nonce) = nonce ∧
    cipherPart (encrypt m key nonce) = aeadEncrypt m key nonce ∧
    bodyPart (encrypt m key nonce) = xorStream key nonce 0 m ∧
    storedTag (encrypt m key nonce) = aeadTag key nonce (xorStream key nonce 0 m) := by
  have h16 : ABYTES = 16 := rfl
  have hc : (xorStream key nonce 0 m).length = m.length := xorStream_length _ _ _ _
  have hclen : (aeadEncrypt m key nonce).length = m.length + ABYTES :=
    aeadEncrypt_length m key nonce
  have h1 : noncePart (encrypt m key nonce) = nonce := by
    rw [noncePart, encrypt, show NPUBBYTES = 24 from rfl, List.take_left' hnonce]
  have h2 : cipherPart (encrypt m key nonce) = aeadEncrypt m key nonce := by
    rw [cipherPart, encrypt, show NPUBBYTES = 24 from rfl, List.drop_left' hnonce]
  have hsub : (aeadEncrypt m key nonce).length - ABYTES = (xorStream key nonce 0 m).length := by
    omega
  refine ⟨h1, h2, ?_, ?_⟩
  · rw [bodyPart, h2, hsub, aeadEncrypt, List.take_left]
  · rw [storedTag, h2, hsub, aeadEncrypt, List.drop_left]

/-- C2: `decrypt` fails with an authentication error exactly when the blob is
shorter than the 40-byte nonce+tag minimum or the AEAD tag check fails
(otherwise it returns a plaintext); in particular flipping any single bit
inside the tag region of an `encrypt`-produced blob makes `decrypt` fail, and
decrypting with a different key fails. -/
theorem decrypt_auth_characterization :
    (∀ blob key : Bytes, isAuthError (decrypt blob key) = true ↔
        (blob.length < NPUBBYTES + ABYTES ∨ TagCheckFails blob key)) ∧
    (∀ blob key : Bytes, ¬(blob.length < NPUBBYTES + ABYTES ∨ TagCheckFails blob key) →
        ∃ p, decrypt blob key = Except.ok p) ∧
    (∀ (m key nonce : Bytes) (j b : Nat), nonce.length = 24 → j < ABYTES →
        isAuthError (decrypt (flipTagBit (encrypt m key nonce) j b) key) = true) ∧
    (∀ m key key2 nonce : Bytes, ByteValid key → ByteValid key2 →
        nonce.length = 24 → key ≠ key2 →
        isAuthError (decrypt (encrypt m key nonce) key2) = true) := by
  have h40 : NPUBBYTES + ABYTES = 40 := rfl
  have h16 : ABYTES = 16 := rfl
  have h24 : NPUBBYTES = 24 := rfl
  have hmain : ∀ blob key : Bytes, isAuthError (decrypt blob key) = true ↔
      (blob.length < NPUBBYTES + ABYTES ∨ TagCheckFails blob key) := by
    intro blob key
    by_cases hshort : blob.length < NPUBBYTES + ABYTES
    · simp [decrypt, hshort, isAuthError]
    · have hcge : ¬ (blob.drop NPUBBYTES).length < ABYTES := by
        simp only [List.length_drop]; omega
      unfold decrypt aeadDecrypt
      rw [if_neg hshort, if_neg hcge]
      by_cases hcond : (blob.drop NPUBBYTES).drop ((blob.drop NPUBBYTES).length - ABYTES) =
          aeadTag key (blob.take NPUBBYTES)
            ((blob.drop NPUBBYTES).take ((blob.drop NPUBBYTES).length - ABYTES))
      · rw [if_pos hcond]
        constructor
        · intro hfalse; exact absurd hfalse Bool.false_ne_true
        · intro hor
          rcases hor with hs | ht
          · exact absurd hs hshort
          · exact absurd hcond ht
      · rw [if_neg hcond]
        exact ⟨fun _ => Or.inr hcond, fun _ => rfl⟩
  refine ⟨hmain, ?_, ?_, ?_⟩
  · intro blob key hnot
    have h := (hmain blob key).not.mpr hnot
    revert h
    cases hd : decrypt blob key with
    | ok p => exact fun _ => ⟨p, rfl⟩
    | error e => intro h; exact (h rfl).elim
  · intro m key nonce j b hnonce hj
    have hc : (xorStream key nonce 0 m).length = m.length := xorStream_length _ _ _ _
    have hclen : (aeadEncrypt m key nonce).length = m.length + ABYTES :=
      aeadEncrypt_length m key nonce
    have hblen : (encrypt m key nonce).length = m.length + 40 := by
      simp only [encrypt, List.length_append, hclen]; omega
    set T := tagValue key nonce (xorStream key nonce 0 m) with hT
    have htagrep : aeadTag key nonce (xorStream key nonce 0 m) = List.replicate ABYTES T := rfl
    -- the flipped index lands `c.length + j` positions into the ciphertext part
    have hidx : (encrypt m key nonce).length - ABYTES + j
        = nonce.length + ((xorStream key nonce 0 m).length + j) := by
      omega
    have hassoc : encrypt m key nonce
        = nonce ++ (xorStream key nonce 0 m ++ List.replicate ABYTES T) := by
      rw [encrypt, aeadEncrypt, htagrep]
    have hgetD : (encrypt m key nonce).getD ((encrypt m key nonce).length - ABYTES + j) 0 = T := by
      rw [hidx, hassoc, getD_append_right, getD_append_right, getD_replicate_self]
      omega
    have hflip : flipTagBit (encrypt m key nonce) j b
        = nonce ++ (xorStream key nonce 0 m ++ (List.replicate ABYTES T).set j (T ^^^ 2 ^ b)) := by
      rw [flipTagBit, hgetD, hidx, hassoc, set_append_right, set_append_right]
    set tag2 : Bytes := (List.replicate ABYTES T).set j (T ^^^ 2 ^ b) with htag2
    have htag2len : tag2.length = ABYTES := by
      simp [htag2]
    have hflen : (flipTagBit (encrypt m key nonce) j b).length = m.length + 40 := by
      rw [hflip]
      simp only [List.length_append, htag2len, hc, h16, hnonce]
      omega
    have htake : (flipTagBit (encrypt m key nonce) j b).take NPUBBYTES = nonce := by
      rw [hflip, h24, List.take_left' hnonce]
    have hdrop : (flipTagBit (encrypt m key nonce) j b).drop NPUBBYTES
        = xorStream key nonce 0 m ++ tag2 := by
      rw [hflip, h24, List.drop_left' hnonce]
    have hc2len : (xorStream key nonce 0 m ++ tag2).length = m.length + ABYTES := by
      simp [htag2len, hc]
    have hsub2 : (xorStream key nonce 0 m ++ tag2).length - ABYTES
        = (xorStream key nonce 0 m).length := by omega
    have hbody2 : (xorStream key nonce 0 m ++ tag2).take
        ((xorStream key nonce 0 m ++ tag2).length - ABYTES) = xorStream key nonce 0 m := by
      rw [hsub2, List.take_left]
    have hstored2 : (xorStream key nonce 0 m ++ tag2).drop
        ((xorStream key nonce 0 m ++ tag2).length - ABYTES) = tag2 := by
      rw [hsub2, List.drop_left]
    have htagne : tag2 ≠ aeadTag key nonce (xorStream key nonce 0 m) := by
      intro hcontra
      have hj' : j < (List.replicate ABYTES T).length := by
        simp [h16]; omega
      have l : tag2.getD j 0 = T ^^^ 2 ^ b := getD_set_self _ _ _ _ hj'
      have r : (aeadTag key nonce (xorStream key nonce 0 m)).getD j 0 = T := by
        rw [htagrep]; exact getD_replicate_self _ _ _ _ (by omega)
      rw [hcontra, r] at l
      exact xor_pow_ne T b l.symm
    unfold decrypt
    rw [if_neg (by omega)]
    rw [hdrop, htake]
    unfold aeadDecrypt
    rw [if_neg (by omega), hbody2, hstored2, if_neg htagne]
    rfl
  · intro m key key2 nonce hv hv2 hnonce hne
    have hc : (xorStream key nonce 0 m).length = m.length := xorStream_length _ _ _ _
    have hclen : (aeadEncrypt m key nonce).length = m.length + ABYTES :=
      aeadEncrypt_length m key nonce
    have hblen : (encrypt m key nonce).length = m.length + 40 := by
      simp only [encrypt, List.length_append, hclen]; omega
    obtain ⟨h1, h2, h3, h4⟩ := encrypt_parts m key nonce hnonce
    have htagne : storedTag (encrypt m key nonce)
        ≠ aeadTag key2 (noncePart (encrypt m key nonce)) (bodyPart (encrypt m key nonce)) := by
      rw [h1, h3, h4]
      intro hcontra
      have hv' := replicate_tag_inj hcontra
      have := (Nat.pair_eq_pair.mp hv').1
      exact hne (encodeBytes_injOn hv hv2 this)
    exact (hmain (encrypt m key nonce) key2).mpr (Or.inr htagne)

/-- Closed-input checks for `decrypt_auth_characterization`: a short blob
fails, a bit-flip in the tag fails, a wrong key fails, and an intact blob
decrypts. -/
theorem decrypt_auth_characterization_witness :
    isAuthError (decrypt (flipTagBit
        (encrypt [5] (List.replicate 32 0) (List.replicate 24 1)) 3 2)
        (List.replicate 32 0)) = true ∧
    isAuthError (decrypt (encrypt [5] (List.replicate 32 0) (List.replicate 24 1))
        (List.replicate 32 9)) = true ∧
    isAuthError (decrypt [1, 2, 3] (List.replicate 32 0)) = true :=
  ⟨decrypt_auth_characterization.2.2.1 [5] (List.replicate 32 0) (List.replicate 24 1) 3 2
      (by decide) (by decide),
   decrypt_auth_characterization.2.2.2 [5] (List.replicate 32 0) (List.replicate 32 9)
      (List.replicate 24 1) (by decide) (by decide) (by decide) (by decide),
   (decrypt_auth_characterization.1 [1, 2, 3] (List.replicate 32 0)).mpr
      (Or.inl (by decide))⟩

/-! ## Strings, decimal formatting, chunk addressing -/

/-- JS strings are modelled as lists of characters. -/
abbrev JStr := List Char

/-- Decimal digit character, as produced by JS number-to-string coercion. -/
def digitChar : Nat → Char
  | 0 => '0' | 1 => '1' | 2 => '2' | 3 => '3' | 4 => '4'
  | 5 => '5' | 6 => '6' | 7 => '7' | 8 => '8' | 9 => '9'
  | _ => '0'

theorem digitChar_inj {a b : Nat} (ha : a < 10) (hb : b < 10)
    (h : digitChar a = digitChar b) : a = b := by
  interval_cases a <;> interval_cases b <;> simp_all [digitChar]

theorem digitChar_ne_colon {d : Nat} (hd : d < 10) : digitChar d ≠ ':' := by
  interval_cases d <;> decide

/-- JS template interpolation of a number (`${chunkIndex}`): the usual
decimal representation. -/
def natToChars (n : Nat) : JStr :=
  if h : n < 10 then [digitChar n]
  else natToChars (n / 10) ++ [digitChar (n % 10)]
  decreasing_by exact Nat.div_lt_self (by omega) (by omega)

theorem natToChars_eq_small {n : Nat} (h : n < 10) : natToChars n = [digitChar n] := by
  unfold natToChars; rw [dif_pos h]

theorem natToChars_eq_large {n : Nat} (h : ¬ n < 10) :
    natToChars n = natToChars (n / 10) ++ [digitChar (n % 10)] := by
  conv_lhs => unfold natToChars
  rw [dif_neg h]

theorem natToChars_ne_nil (n : Nat) : natToChars n ≠ [] := by
  by_cases h : n < 10
  · rw [natToChars_eq_small h]; simp
  · rw [natToChars_eq_large h]; simp

theorem natToChars_digits (n : Nat) : ∀ c ∈ natToChars n, ∃ d, d < 10 ∧ c = digitChar d := by
  induction n using Nat.strong_induction_on with
  | _ n ih =>
    by_cases h : n < 10
    · rw [natToChars_eq_small h]
      intro c hc
      exact ⟨n, h, by simpa using hc⟩
    · rw [natToChars_eq_large h]
      intro c hc
      rcases List.mem_append.mp hc with h1 | h2
      · exact ih (n / 10) (Nat.div_lt_self (by omega) (by omega)) c h1
      · exact ⟨n % 10, Nat.mod_lt _ (by omega), by simpa using h2⟩

theorem colon_not_mem_natToChars (n : Nat) : ':' ∉ natToChars n := by
  intro hmem
  obtain ⟨d, hd, hc⟩ := natToChars_digits n ':' hmem
  exact digitChar_ne_colon hd hc.symm

theorem natToChars_inj : ∀ m n : Nat, natToChars m = natToChars n → m = n := by
  intro m
  induction m using Nat.strong_induction_on with
  | _ m ih =>
    intro n h
    by_cases hm : m < 10 <;> by_cases hn : n < 10
    · rw [natToChars_eq_small hm, natToChars_eq_small hn] at h
      exact digitChar_inj hm hn (by simpa using h)
    · rw [natToChars_eq_small hm, natToChars_eq_large hn] at h
      have hl := congrArg List.length h
      simp only [List.length_append, List.length_singleton] at hl
      have : (natToChars (n / 10)).length = 0 := by omega
      exact absurd (List.length_eq_zero.mp this) (natToChars_ne_nil _)
    · rw [natToChars_eq_large hm, natToChars_eq_small hn] at h
      have hl := congrArg List.length h
      simp only [List.length_append, List.length_singleton] at hl
      have : (natToChars (m / 10)).length = 0 := by omega
      exact absurd (List.length_eq_zero.mp this) (natToChars_ne_nil _)
    · rw [natToChars_eq_large hm, natToChars_eq_large hn] at h
      have hparts := List.append_inj' h (by simp)
      have hdiv : m / 10 = n / 10 :=
        ih (m / 10) (Nat.div_lt_self (by omega) (by omega)) _ hparts.1
      have hmod : m % 10 = n % 10 :=
        digitChar_inj (Nat.mod_lt _ (by omega)) (Nat.mod_lt _ (by omega))
          (by simpa using hparts.2)
      omega

/-- Splitting a string at its final colon is unambiguous when the parts after
the colon are colon free. -/
theorem append_colon_inj : ∀ (f₁ f₂ d₁ d₂ : JStr), ':' ∉ d₁ → ':' ∉ d₂ →
    f₁ ++ ':' :: d₁ = f₂ ++ ':' :: d₂ → f₁ = f₂ ∧ d₁ = d₂ := by
  intro f₁
  induction f₁ with
  | nil =>
    intro f₂ d₁ d₂ h₁ h₂ h
    cases f₂ with
    | nil => simpa using h
    | cons c t =>
      simp only [List.nil_append, List.cons_append, List.cons.injEq] at h
      have hmem : ':' ∈ d₁ := by
        rw [h.2]
        exact List.mem_append_right t (List.mem_cons_self ':' d₂)
      exact absurd hmem h₁
  | cons c t ih =>
    intro f₂ d₁ d₂ h₁ h₂ h
    cases f₂ with
    | nil =>
      simp only [List.cons_append, List.nil_append, List.cons.injEq] at h
      have hmem : ':' ∈ d₂ := by
        rw [← h.2]
        exact List.mem_append_right t (List.mem_cons_self ':' d₁)
      exact absurd hmem h₂
    | cons c' t' =>
      simp only [List.cons_append, List.cons.injEq] at h
      obtain ⟨hf, hd⟩ := ih t' d₁ d₂ h₁ h₂ h.2
      exact ⟨by rw [h.1, hf], hd⟩

/-- Modelled from the spec: `sodium.crypto_generichash` (BLAKE2b) composed
with `sodium.to_hex` is an external libsodium primitive; the spec treats it as
a collision-free digest ("deterministic-yet-unguessable addressing",
"`chunkId(fileUid, i)` is stable and injective"), so it is modelled as an
ideal injective digest over its input string. -/
def genericHashHex (s : JStr) : JStr := 'h' :: s

theorem genericHashHex_inj {s₁ s₂ : JStr} (h : genericHashHex s₁ = genericHashHex s₂) :
    s₁ = s₂ := by
  simpa [genericHashHex] using h

/-- crypto.ts `deriveChunkUid` (part_007 lines 219-229):
`chunk_uid = Hash(fileUid ‖ ":" ‖ chunkIndex)` over the template string
`` `${fileUid}:${chunkIndex}` ``. -/
def deriveChunkUid (fileUid : JStr) (chunkIndex : Nat) : JStr :=
  genericHashHex (fileUid ++ ':' :: natToChars chunkIndex)

/-- chunks.ts `getChunkPath` (lines 50-58) as invoked by useUpload.ts line 136
and useDownload line 437 with three arguments `(vaultUid, file_uid,
chunkIndex)`: the chunk index is the value that reaches `deriveChunkUid`'s
second parameter, so the effective path is
`` `${vaultUid}/${deriveChunkUid(fileUid, chunkIndex)}` ``. -/
def getChunkPath (vaultUid fileUid : JStr) (chunkIndex : Nat) : JStr :=
  vaultUid ++ '/' :: deriveChunkUid fileUid chunkIndex

/-- C4: `chunkId(fileUid, index) = Hash(fileUid ‖ ":" ‖ index)`; the value is
deterministic, injective over distinct `(fileUid, index)` pairs, and the
chunk's storage path is `vaultId ‖ "/" ‖ chunkId`. -/
theorem chunk_addressing :
    (∀ (fileUid : JStr) (i : Nat),
        deriveChunkUid fileUid i = genericHashHex (fileUid ++ ':' :: natToChars i)) ∧
    (∀ (f₁ : JStr) (i₁ : Nat) (f₂ : JStr) (i₂ : Nat), f₁ = f₂ → i₁ = i₂ →
        deriveChunkUid f₁ i₁ = deriveChunkUid f₂ i₂) ∧
    (∀ (f₁ : JStr) (i₁ : Nat) (f₂ : JStr) (i₂ : Nat),
        deriveChunkUid f₁ i₁ = deriveChunkUid f₂ i₂ → f₁ = f₂ ∧ i₁ = i₂) ∧
    (∀ (v f : JStr) (i : Nat), getChunkPath v f i = v ++ '/' :: deriveChunkUid f i) := by
  refine ⟨fun _ _ => rfl, ?_, ?_, fun _ _ _ => rfl⟩
  · intro f₁ i₁ f₂ i₂ hf hi; rw [hf, hi]
  · intro f₁ i₁ f₂ i₂ h
    have h' := genericHashHex_inj h
    obtain ⟨hf, hd⟩ := append_colon_inj f₁ f₂ (natToChars i₁) (natToChars i₂)
      (colon_not_mem_natToChars i₁) (colon_not_mem_natToChars i₂) h'
    exact ⟨hf, natToChars_inj _ _ hd⟩

/-! ## Manifest entries and name truncation -/

/-- `ManifestEntry.type` values (types.ts: `"file" | "folder"`). -/
inductive EntryType where
  | file : EntryType
  | folder : EntryType
deriving DecidableEq

/-- types.ts `ManifestEntry`: id, name, type, parent plus the file-specific
fields. -/
structure ManifestEntry where
  id : JStr
  name : JStr
  type : EntryType
  parent : Option JStr
  file_uid : Option JStr := none
  size : Option Nat := none
  chunk_count : Option Nat := none
  mime_type : Option JStr := none
  created_at : JStr := []
deriving DecidableEq

/-- types.ts `MAX_FILE_NAME_LENGTH = 255`. -/
def MAX_FILE_NAME_LENGTH : Nat := 255

/-- JS `String.prototype.lastIndexOf` for a single character: the index of
the last occurrence, or `-1` when absent. -/
def lastIndexOfChar (c : Char) : JStr → Int
  | [] => -1
  | a :: t =>
    let r := lastIndexOfChar c t
    if r ≥ 0 then r + 1
    else if a = c then 0 else -1

theorem lastIndexOfChar_cases (c : Char) (s : JStr) :
    lastIndexOfChar c s = -1 ∨ ∃ k : Nat, lastIndexOfChar c s = (k : Int) ∧ k < s.length := by
  induction s with
  | nil => exact Or.inl rfl
  | cons a t ih =>
    rcases ih with h | ⟨k, hk, hlt⟩
    · by_cases hac : a = c
      · refine Or.inr ⟨0, ?_, by simp⟩
        simp [lastIndexOfChar, h, hac]
      · refine Or.inl ?_
        simp [lastIndexOfChar, h, hac]
    · refine Or.inr ⟨k + 1, ?_, by simpa using hlt⟩
      have : lastIndexOfChar c t ≥ 0 := by rw [hk]; exact Int.ofNat_nonneg k
      simp only [lastIndexOfChar, if_pos this, hk]
      rfl

/-- manifest.ts `truncateName` (lines 45-57): names of at most 255 characters
are returned unchanged; otherwise a short extension (a final dot that is
neither at position 0 nor more than 9 characters from the end) is preserved
behind an `"..."` ellipsis, and otherwise the name is cut at 252 characters
and `"..."` appended. -/
def truncateName (name : JStr) : JStr :=
  if name.length ≤ MAX_FILE_NAME_LENGTH then name
  else
    let lastDot := lastIndexOfChar '.' name
    if lastDot > 0 ∧ lastDot > (name.length : Int) - 10 then
      let ext := name.drop lastDot.toNat
      let baseName := name.take (MAX_FILE_NAME_LENGTH - ext.length - 3)
      baseName ++ ['.', '.', '.'] ++ ext
    else
      name.take (MAX_FILE_NAME_LENGTH - 3) ++ ['.', '.', '.']

/-- manifest.ts `createFolder` (lines 8-16).  The generated UUID
(`generateFileUid`) and the timestamp (`new Date().toISOString()`) are
effectful and modelled as explicit arguments. -/
def createFolder (genId now : JStr) (name : JStr) (parent : Option JStr) : ManifestEntry :=
  { id := genId, name := truncateName name, type := EntryType.folder,
    parent := parent, created_at := now }

/-- manifest.ts `createFileEntry` (lines 21-40), with the generated UUID and
timestamp as explicit arguments. -/
def createFileEntry (genId now : JStr) (name : JStr) (parent : Option JStr)
    (fileUid : JStr) (size chunkCount : Nat) (mimeType : JStr) : ManifestEntry :=
  { id := genId, name := truncateName name, type := EntryType.file,
    parent := parent, file_uid := some fileUid, size := some size,
    chunk_count := some chunkCount, mime_type := some mimeType, created_at := now }

set_option maxRecDepth 8000 in
/-- C9 counterexample: a 257-character name whose extension is 10 characters
beyond the dot (`246×'a' ++ "." ++ 10×'b'`) is truncated by the generic
branch, so its extension is *not* preserved — the truncated name does not end
with the extension. -/
theorem truncateName_long_extension_lost :
    ¬ (('.' :: List.replicate 10 'b') <:+
        truncateName (List.replicate 246 'a' ++ '.' :: List.replicate 10 'b')) := by
  decide

/-- C9 (amended): `createFolder` and `createFileEntry` always store a name of
at most 255 characters — names of at most 255 characters are stored
unchanged, longer names are truncated to exactly 255 characters, and the file
extension is preserved when the final dot sits at a positive index less than
10 characters from the end (longer extensions are cut by the generic
branch). -/
theorem truncateName_spec :
    (∀ name : JStr, name.length ≤ MAX_FILE_NAME_LENGTH → truncateName name = name) ∧
    (∀ name : JStr, MAX_FILE_NAME_LENGTH < name.length →
        (truncateName name).length = MAX_FILE_NAME_LENGTH) ∧
    (∀ (name : JStr) (k : Nat), MAX_FILE_NAME_LENGTH < name.length →
        lastIndexOfChar '.' name = (k : Int) → 0 < k → (name.length : Int) - 10 < (k : Int) →
        name.drop k <:+ truncateName name) ∧
    (∀ (genId now name : JStr) (parent : Option JStr),
        (createFolder genId now name parent).name.length ≤ MAX_FILE_NAME_LENGTH) ∧
    (∀ (genId now name : JStr) (parent : Option JStr) (fileUid : JStr)
        (size chunkCount : Nat) (mimeType : JStr),
        (createFileEntry genId now name parent fileUid size chunkCount
          mimeType).name.length ≤ MAX_FILE_NAME_LENGTH) := by
  have h255 : MAX_FILE_NAME_LENGTH = 255 := rfl
  have hshort : ∀ name : JStr, name.length ≤ MAX_FILE_NAME_LENGTH → truncateName name = name := by
    intro name h
    rw [truncateName, if_pos h]
  have hlen : ∀ name : JStr, MAX_FILE_NAME_LENGTH < name.length →
      (truncateName name).length = MAX_FILE_NAME_LENGTH := by
    intro name h
    rw [truncateName, if_neg (by omega)]
    rcases lastIndexOfChar_cases '.' name with hdot | ⟨k, hk, hklt⟩
    · rw [if_neg (by rw [hdot]; intro hc; exact absurd hc.1 (by norm_num))]
      simp only [List.length_append, List.length_take, List.length_cons, List.length_nil]
      omega
    · by_cases hguard : (0 : Int) < (k : Int) ∧ (name.length : Int) - 10 < (k : Int)
      · rw [if_pos (by rw [hk]; exact hguard)]
        have hknat : ((k : Int)).toNat = k := Int.toNat_ofNat k
        simp only [hk, hknat, List.length_append, List.length_take, List.length_drop,
          List.length_cons, List.length_nil]
        omega
      · rw [if_neg (by rw [hk]; exact hguard)]
        simp only [List.length_append, List.length_take, List.length_cons, List.length_nil]
        omega
  refine ⟨hshort, hlen, ?_, ?_, ?_⟩
  · intro name k h hk hk0 hkbig
    rw [truncateName, if_neg (by omega)]
    rw [if_pos (by rw [hk]; exact ⟨by exact_mod_cast hk0, hkbig⟩)]
    rw [hk, Int.toNat_ofNat]
    rw [List.append_assoc]
    exact (List.suffix_append ['.', '.', '.'] (name.drop k)).trans (List.suffix_append _ _)
  · intro genId now name parent
    show (truncateName name).length ≤ MAX_FILE_NAME_LENGTH
    by_cases h : name.length ≤ MAX_FILE_NAME_LENGTH
    · rw [hshort name h]; exact h
    · rw [hlen name (by omega)]
  · intro genId now name parent fileUid size chunkCount mimeType
    show (truncateName name).length ≤ MAX_FILE_NAME_LENGTH
    by_cases h : name.length ≤ MAX_FILE_NAME_LENGTH
    · rw [hshort name h]; exact h
    · rw [hlen name (by omega)]

set_option maxRecDepth 8000 in
/-- Closed-input checks for `truncateName_spec`: a short name survives, a long
name comes back at 255 characters, and a long name with a short extension
keeps it. -/
theorem truncateName_spec_witness :
    truncateName ['a', '.', 'b'] = ['a', '.', 'b'] ∧
    (truncateName (List.replicate 260 'a')).length = MAX_FILE_NAME_LENGTH ∧
    (List.replicate 252 'a' ++ '.' :: ['t', 'x', 't']).drop 252 <:+
      truncateName (List.replicate 252 'a' ++ '.' :: ['t', 'x', 't']) :=
  ⟨truncateName_spec.1 ['a', '.', 'b'] (by decide),
   truncateName_spec.2.1 (List.replicate 260 'a') (by decide),
   truncateName_spec.2.2.1 (List.replicate 252 'a' ++ '.' :: ['t', 'x', 't']) 252
     (by decide) (by decide) (by decide) (by decide)⟩

/-! ## Upload chunk retry loop (useUpload.ts) -/

/-- useUpload.ts line 17: `MAX_RETRIES = 3`. -/
def MAX_RETRIES : Nat := 3

/-- useUpload.ts line 18: `RETRY_DELAY_MS = 1000`. -/
def RETRY_DELAY_MS : Nat := 1000

/-- Result of the per-chunk retry loop inside `uploadNextChunk`
(useUpload.ts lines 127-200): `success` records how many attempts were made
and which backoff delays were slept; `cancelled` is the distinct
`"Upload cancelled"` throw; `failed` is the rethrow after exhaustion, which
rejects `Promise.all` and marks the whole item as an error. -/
inductive ChunkOutcome where
  | success (attempts : Nat) (delays : List Nat)
  | cancelled (delays : List Nat)
  | failed (attempts : Nat) (delays : List Nat)
deriving DecidableEq

/-- The `while (retries < MAX_RETRIES)` loop of `uploadNextChunk`
(useUpload.ts lines 129-200).  `ok t` says whether the attempt made with
`retries = t` succeeds (read+encrypt+upload+rpc); `cancelledAfter t` is the
cancellation flag as polled in the catch block after that attempt fails.  On
a failure the counter is incremented, cancellation is polled, exhaustion
rethrows, and otherwise `RETRY_DELAY_MS * retries` is slept before the next
attempt.  The final `else` is unreachable when entered with `retries = 0`
(the loop always exits through `break` or a `throw`). -/
def retryLoop (ok cancelledAfter : Nat → Bool) (retries : Nat) (delays : List Nat) :
    ChunkOutcome :=
  if h : retries < MAX_RETRIES then
    if ok retries then ChunkOutcome.success (retries + 1) delays
    else if cancelledAfter retries then ChunkOutcome.cancelled delays
    else if MAX_RETRIES ≤ retries + 1 then ChunkOutcome.failed (retries + 1) delays
    else retryLoop ok cancelledAfter (retries + 1) (delays ++ [RETRY_DELAY_MS * (retries + 1)])
  else ChunkOutcome.failed retries delays
  termination_by MAX_RETRIES - retries
  decreasing_by omega

/-- One chunk's processing: the retry loop entered with `retries = 0` and no
delays slept yet. -/
def uploadChunkRetry (ok cancelledAfter : Nat → Bool) : ChunkOutcome :=
  retryLoop ok cancelledAfter 0 []

theorem retryLoop_step_fail (ok c : Nat → Bool) (r : Nat) (d : List Nat)
    (hr : r < MAX_RETRIES) (hok : ok r = false) (hc : c r = false)
    (hnext : r + 1 < MAX_RETRIES) :
    retryLoop ok c r d = retryLoop ok c (r + 1) (d ++ [RETRY_DELAY_MS * (r + 1)]) := by
  conv_lhs => unfold retryLoop
  rw [dif_pos hr, if_neg (by simp [hok]), if_neg (by simp [hc]), if_neg (by omega)]

theorem retryLoop_step_succ (ok c : Nat → Bool) (r : Nat) (d : List Nat)
    (hr : r < MAX_RETRIES) (hok : ok r = true) :
    retryLoop ok c r d = ChunkOutcome.success (r + 1) d := by
  conv_lhs => unfold retryLoop
  rw [dif_pos hr, if_pos hok]

theorem retryLoop_step_exhaust (ok c : Nat → Bool) (r : Nat) (d : List Nat)
    (hr : r < MAX_RETRIES) (hok : ok r = false) (hc : c r = false)
    (hlast : MAX_RETRIES ≤ r + 1) :
    retryLoop ok c r d = ChunkOutcome.failed (r + 1) d := by
  conv_lhs => unfold retryLoop
  rw [dif_pos hr, if_neg (by simp [hok]), if_neg (by simp [hc]), if_pos hlast]

theorem uploadChunkRetry_all_fail (ok c : Nat → Bool)
    (hc : ∀ t, c t = false) (h0 : ok 0 = false) (h1 : ok 1 = false) (h2 : ok 2 = false) :
    uploadChunkRetry ok c
      = ChunkOutcome.failed MAX_RETRIES [RETRY_DELAY_MS * 1, RETRY_DELAY_MS * 2] := by
  rw [uploadChunkRetry,
    retryLoop_step_fail ok c 0 [] (by decide) h0 (hc 0) (by decide),
    retryLoop_step_fail ok c 1 _ (by decide) h1 (hc 1) (by decide),
    retryLoop_step_exhaust ok c 2 _ (by decide) h2 (hc 2) (by decide)]
  rfl

theorem uploadChunkRetry_first_success (ok c : Nat → Bool)
    (hc : ∀ t, c t = false) (t : Nat) (ht : t < MAX_RETRIES) (hok : ok t = true)
    (hbefore : ∀ s, s < t → ok s = false) :
    uploadChunkRetry ok c
      = ChunkOutcome.success (t + 1) ((List.range t).map (fun s => RETRY_DELAY_MS * (s + 1))) := by
  have h3 : MAX_RETRIES = 3 := rfl
  rw [h3] at ht
  interval_cases t
  · rw [uploadChunkRetry, retryLoop_step_succ ok c 0 [] (by decide) hok]
    rfl
  · rw [uploadChunkRetry,
      retryLoop_step_fail ok c 0 [] (by decide) (hbefore 0 (by omega)) (hc 0) (by decide),
      retryLoop_step_succ ok c 1 _ (by decide) hok]
    rfl
  · rw [uploadChunkRetry,
      retryLoop_step_fail ok c 0 [] (by decide) (hbefore 0 (by omega)) (hc 0) (by decide),
      retryLoop_step_fail ok c 1 _ (by decide) (hbefore 1 (by omega)) (hc 1) (by decide),
      retryLoop_step_succ ok c 2 _ (by decide) hok]
    rfl

/-- C3: with no cancellation, a failing chunk attempt is retried on the same
chunk up to `MAX_RETRIES = 3` total attempts, with a linear backoff of
`attempt * 1000 ms` slept between consecutive attempts; the chunk escalates
to an item-level failure (the rethrow that rejects `Promise.all`) exactly
when all three attempts fail. -/
theorem chunk_retry_policy :
    (∀ ok c : Nat → Bool, (∀ t, c t = false) →
        ((∃ a d, uploadChunkRetry ok c = ChunkOutcome.failed a d) ↔
          (ok 0 = false ∧ ok 1 = false ∧ ok 2 = false))) ∧
    (∀ ok c : Nat → Bool, (∀ t, c t = false) →
        ok 0 = false → ok 1 = false → ok 2 = false →
        uploadChunkRetry ok c
          = ChunkOutcome.failed MAX_RETRIES [RETRY_DELAY_MS * 1, RETRY_DELAY_MS * 2]) ∧
    (∀ ok c : Nat → Bool, (∀ t, c t = false) →
        ∀ t, t < MAX_RETRIES → ok t = true → (∀ s, s < t → ok s = false) →
        uploadChunkRetry ok c
          = ChunkOutcome.success (t + 1)
              ((List.range t).map (fun s => RETRY_DELAY_MS * (s + 1)))) := by
  refine ⟨?_, uploadChunkRetry_all_fail, uploadChunkRetry_first_success⟩
  intro ok c hc
  constructor
  · rintro ⟨a, d, hfail⟩
    by_cases h0 : ok 0 = true
    · rw [uploadChunkRetry_first_success ok c hc 0 (by decide) h0 (by omega)] at hfail
      exact absurd hfail (by simp)
    · by_cases h1 : ok 1 = true
      · rw [uploadChunkRetry_first_success ok c hc 1 (by decide) h1
          (by intro s hs; interval_cases s; simpa using h0)] at hfail
        exact absurd hfail (by simp)
      · by_cases h2 : ok 2 = true
        · rw [uploadChunkRetry_first_success ok c hc 2 (by decide) h2
            (by intro s hs; interval_cases s
                · simpa using h0
                · simpa using h1)] at hfail
          exact absurd hfail (by simp)
        · exact ⟨by simpa using h0, by simpa using h1, by simpa using h2⟩
  · rintro ⟨h0, h1, h2⟩
    exact ⟨MAX_RETRIES, [RETRY_DELAY_MS * 1, RETRY_DELAY_MS * 2],
      uploadChunkRetry_all_fail ok c hc h0 h1 h2⟩

/-- Closed-input checks for `chunk_retry_policy`: an always-failing chunk
escalates after 3 attempts with delays 1000 ms and 2000 ms; a chunk that
succeeds on its second attempt stops after one 1000 ms backoff. -/
theorem chunk_retry_policy_witness :
    uploadChunkRetry (fun _ => false) (fun _ => false)
      = ChunkOutcome.failed 3 [1000, 2000] ∧
    uploadChunkRetry (fun t => t == 1) (fun _ => false)
      = ChunkOutcome.success 2 [1000] :=
  ⟨chunk_retry_policy.2.1 (fun _ => false) (fun _ => false)
      (fun _ => rfl) rfl rfl rfl,
   chunk_retry_policy.2.2 (fun t => t == 1) (fun _ => false)
      (fun _ => rfl) 1 (by decide) rfl
      (by intro s hs; interval_cases s; rfl)⟩

/-! ## `removeEntry` and the descendant recursions (manifest.ts) -/

/-- The manifest (types.ts `VaultManifest` as consumed by manifest.ts): the
flat list of entries. -/
abbrev Manifest := List ManifestEntry

/-- The mutable state of `removeEntry`'s walk: the JS `idsToRemove` Set (in
insertion order — `Set.add` of a present element is a no-op, which under the
no-revisit hypotheses proved below never happens) and the `removedFiles`
array. -/
structure CollectState where
  ids : List JStr
  files : List ManifestEntry
deriving DecidableEq

/-- manifest.ts `collectDescendants` (lines 96-107): scan the whole manifest
for entries whose `parent` is `parentId`; record each such id, push file
children onto `removedFiles`, and recurse into folder children.  The source
recursion has no termination guarantee for cyclic parent pointers, so the
embedding carries fuel (consumed once per nested folder recursion) and
returns `none` when the fuel runs out; `todo` is the remaining portion of the
manifest being scanned by `schema.forEach`. -/
def collectGo (m : Manifest) (fuel : Nat) (parentId : JStr)
    (todo : List ManifestEntry) (st : CollectState) : Option CollectState :=
  match todo with
  | [] => some st
  | e :: rest =>
    if e.parent = some parentId then
      if e.type = EntryType.file then
        collectGo m fuel parentId rest ⟨st.ids ++ [e.id], st.files ++ [e]⟩
      else if hf : fuel = 0 then none
      else
        match collectGo m (fuel - 1) e.id m ⟨st.ids ++ [e.id], st.files⟩ with
        | none => none
        | some st2 => collectGo m fuel parentId rest st2
    else collectGo m fuel parentId rest st
  termination_by (fuel, todo.length)
  decreasing_by
  · simp_wf; omega
  · simp_wf; omega
  · simp_wf; omega
  · simp_wf; omega

/-- manifest.ts `removeEntry` (lines 80-113): look up the entry; a missing id
is a no-op returning the manifest unchanged and no removed files; a file is
removed alone; a folder additionally collects all ids reachable through the
`collectDescendants` recursion; the result filters out the collected ids and
returns the pushed file entries. -/
def removeEntryF (m : Manifest) (entryId : JStr) (fuel : Nat) :
    Option (Manifest × List ManifestEntry) :=
  match m.find? (fun e => e.id == entryId) with
  | none => some (m, [])
  | some entry =>
    let st0 : CollectState :=
      ⟨[entryId], if entry.type = EntryType.file then [entry] else []⟩
    match (if entry.type = EntryType.folder
           then collectGo m fuel entryId m st0 else some st0) with
    | none => none
    | some stF =>
      some (m.filter (fun e => !(stF.ids.contains e.id)), stF.files)

/-- manifest.ts `isDescendantOf` (lines 316-325): walk the parent chain of
`entryId` until the ancestor, a root, or a dangling id is found.  Fueled, as
the walk does not terminate on a parent cycle. -/
def isDescendantOfF (m : Manifest) (fuel : Nat) (entryId ancestorId : JStr) :
    Option Bool :=
  match fuel with
  | 0 => none
  | fuel' + 1 =>
    match m.find? (fun e => e.id == entryId) with
    | none => some false
    | some e =>
      match e.parent with
      | none => some false
      | some p =>
        if p = ancestorId then some true
        else isDescendantOfF m fuel' p ancestorId

/-- The spec-level descendant relation: `Reaches m root x` holds when `x` is
`root` itself or the id of an entry whose parent chain leads back to `root`
inside `m` ("transitive descendants"). -/
inductive Reaches (m : Manifest) (root : JStr) : JStr → Prop where
  | refl : Reaches m root root
  | step : ∀ {p : JStr} {e : ManifestEntry},
      Reaches m root p → e ∈ m → e.parent = some p → Reaches m root e.id

/-- Data-model invariant: entry ids are pairwise distinct (they are UUIDs). -/
def NoDupIds (m : Manifest) : Prop := (m.map (fun e => e.id)).Nodup

/-- Data-model invariant (spec §3: "parent pointers form a forest rooted at
null (no cycles)"): a rank certificate decreasing from parents to
children. -/
def AcyclicRank (m : Manifest) (rk : JStr → Nat) : Prop :=
  ∀ e ∈ m, ∀ p, e.parent = some p → rk e.id < rk p

/-- Data-model invariant: a parent pointer only ever references a folder. -/
def ParentsAreFolders (m : Manifest) : Prop :=
  ∀ e ∈ m, ∀ f ∈ m, e.parent = some f.id → f.type = EntryType.folder

theorem Reaches.trans {m : Manifest} {a b c : JStr}
    (h₁ : Reaches m a b) (h₂ : Reaches m b c) : Reaches m a c := by
  induction h₂ with
  | refl => exact h₁
  | step hr he hp ih => exact Reaches.step ih he hp

theorem rank_le_of_reaches {m : Manifest} {rk : JStr → Nat}
    (HA : AcyclicRank m rk) {a x : JStr} (h : Reaches m a x) : rk x ≤ rk a := by
  induction h with
  | refl => exact le_rfl
  | step hr he hp ih =>
    have := HA _ he _ hp
    omega

theorem rank_lt_of_reaches_ne {m : Manifest} {rk : JStr → Nat}
    (HA : AcyclicRank m rk) {a x : JStr} (h : Reaches m a x) (hne : x ≠ a) :
    rk x < rk a := by
  cases h with
  | refl => exact absurd rfl hne
  | step hr he hp =>
    have h1 := HA _ he _ hp
    have h2 := rank_le_of_reaches HA hr
    omega

theorem not_reaches_of_child {m : Manifest} {rk : JStr → Nat}
    (HA : AcyclicRank m rk) {pid : JStr} {e : ManifestEntry}
    (he : e ∈ m) (hp : e.parent = some pid) : ¬ Reaches m e.id pid := by
  intro hr
  have h1 := HA _ he _ hp
  have h2 := rank_le_of_reaches HA hr
  omega

theorem nodup_id_unique {m : Manifest} (HN : NoDupIds m)
    {e f : ManifestEntry} (he : e ∈ m) (hf : f ∈ m) (h : e.id = f.id) : e = f :=
  List.inj_on_of_nodup_map HN he hf h

theorem nodup_entries {m : Manifest} (HN : NoDupIds m) : m.Nodup :=
  List.Nodup.of_map _ HN

theorem reaches_first_step {m : Manifest} {a x : JStr}
    (h : Reaches m a x) (hne : x ≠ a) :
    ∃ g ∈ m, g.parent = some a ∧ Reaches m g.id x := by
  induction h with
  | refl => exact absurd rfl hne
  | step hr he hp ih =>
    rename_i p e
    by_cases hpa : p = a
    · subst hpa
      exact ⟨e, he, hp, Reaches.refl⟩
    · obtain ⟨g, hg, hgp, hgt⟩ := ih hpa
      exact ⟨g, hg, hgp, Reaches.step hgt he hp⟩

theorem reaches_inv {m : Manifest} {b y : JStr} (h : Reaches m b y) :
    y = b ∨ ∃ e ∈ m, e.id = y ∧ ∃ p, e.parent = some p ∧ Reaches m b p := by
  cases h with
  | refl => exact Or.inl rfl
  | step hr he hp => exact Or.inr ⟨_, he, rfl, _, hp, hr⟩

theorem reaches_comparable {m : Manifest} (HN : NoDupIds m) {a b x : JStr}
    (h₁ : Reaches m a x) (h₂ : Reaches m b x) :
    Reaches m a b ∨ Reaches m b a := by
  induction h₁ with
  | refl => exact Or.inr h₂
  | step hr he hp ih =>
    rename_i p e
    rcases reaches_inv h₂ with hb | ⟨f, hf, hid, q, hq, hrq⟩
    · exact Or.inl (hb ▸ Reaches.step hr he hp)
    · have hfe : f = e := nodup_id_unique HN hf he hid
      subst hfe
      rw [hp] at hq
      have hpq := Option.some.inj hq
      subst hpq
      exact ih hrq

/-- Subtrees of two distinct children of the same parent are disjoint (the
parent forest property used to show the DFS never revisits an entry). -/
theorem sibling_subtrees_disjoint {m : Manifest} {rk : JStr → Nat}
    (HN : NoDupIds m) (HA : AcyclicRank m rk) {pid : JStr}
    {e f : ManifestEntry} (he : e ∈ m) (hf : f ∈ m) (hef : e ≠ f)
    (hpe : e.parent = some pid) (hpf : f.parent = some pid) {x : JStr}
    (hx₁ : Reaches m e.id x) (hx₂ : Reaches m f.id x) : False := by
  have hids : e.id ≠ f.id := fun h => hef (nodup_id_unique HN he hf h)
  rcases reaches_comparable HN hx₁ hx₂ with h | h
  · rcases reaches_inv h with hb | ⟨g, hg, hid, q, hq, hrq⟩
    · exact hids hb.symm
    · have hgf : g = f := nodup_id_unique HN hg hf hid
      subst hgf
      rw [hpf] at hq
      have hpq := Option.some.inj hq
      subst hpq
      exact not_reaches_of_child HA he hpe hrq
  · rcases reaches_inv h with hb | ⟨g, hg, hid, q, hq, hrq⟩
    · exact hids hb
    · have hge : g = e := nodup_id_unique HN hg he hid
      subst hge
      rw [hpe] at hq
      have hpq := Option.some.inj hq
      subst hpq
      exact not_reaches_of_child HA hf hpf hrq

theorem file_reaches_self {m : Manifest} (HN : NoDupIds m)
    (HP : ParentsAreFolders m) {e : ManifestEntry} (he : e ∈ m)
    (hfile : e.type = EntryType.file) {x : JStr} (h : Reaches m e.id x) :
    x = e.id := by
  induction h with
  | refl => rfl
  | step hr hg hp ih =>
    rename_i p g
    have hpe : p = e.id := ih
    subst hpe
    have := HP g hg e he hp
    rw [hfile] at this
    exact absurd this (by intro hcontra; cases hcontra)

/-- The ids added by scanning `todo` for children of `pid`: everything
reachable through some child of `pid` listed in `todo`. -/
def ChildSet (m : Manifest) (pid : JStr) (todo : List ManifestEntry) (x : JStr) : Prop :=
  ∃ e, e ∈ todo ∧ e.parent = some pid ∧ Reaches m e.id x

theorem childSet_cons {m : Manifest} {pid : JStr} {e : ManifestEntry}
    {rest : List ManifestEntry} {x : JStr} :
    ChildSet m pid (e :: rest) x ↔
      ((e.parent = some pid ∧ Reaches m e.id x) ∨ ChildSet m pid rest x) := by
  constructor
  · rintro ⟨f, hf, hfp, hfr⟩
    rcases List.mem_cons.mp hf with rfl | hfrest
    · exact Or.inl ⟨hfp, hfr⟩
    · exact Or.inr ⟨f, hfrest, hfp, hfr⟩
  · rintro (⟨hp, hr⟩ | ⟨f, hf, hfp, hfr⟩)
    · exact ⟨e, List.mem_cons_self e rest, hp, hr⟩
    · exact ⟨f, List.mem_cons_of_mem e hf, hfp, hfr⟩

theorem childSet_nil {m : Manifest} {pid x : JStr} : ¬ ChildSet m pid [] x := by
  rintro ⟨f, hf, _, _⟩
  exact absurd hf (List.not_mem_nil f)

theorem reaches_iff_childset {m : Manifest} {eid x : JStr} :
    Reaches m eid x ↔ (x = eid ∨ ChildSet m eid m x) := by
  constructor
  · intro h
    by_cases hx : x = eid
    · exact Or.inl hx
    · obtain ⟨g, hg, hgp, hgr⟩ := reaches_first_step h hx
      exact Or.inr ⟨g, hg, hgp, hgr⟩
  · rintro (rfl | ⟨g, hg, hgp, hgr⟩)
    · exact Reaches.refl
    · exact Reaches.trans (Reaches.step Reaches.refl hg hgp) hgr

theorem childSet_reaches {m : Manifest} {pid x : JStr} {todo : List ManifestEntry}
    (hsub : ∀ e ∈ todo, e ∈ m) (h : ChildSet m pid todo x) : Reaches m pid x := by
  obtain ⟨g, hg, hgp, hgr⟩ := h
  exact Reaches.trans (Reaches.step Reaches.refl (hsub g hg) hgp) hgr

theorem entryType_folder_of_not_file {t : EntryType} (h : ¬ t = EntryType.file) :
    t = EntryType.folder := by
  cases t
  · exact absurd rfl h
  · rfl

/-- DFS correctness of `collectDescendants`: on a well-formed manifest the
walk terminates with the ids and removed files extended by exactly the
descendants reachable through the children listed in `todo`, each exactly
once. -/
theorem collectGo_spec {m : Manifest} {rk : JStr → Nat}
    (HN : NoDupIds m) (HA : AcyclicRank m rk) (HP : ParentsAreFolders m) :
    ∀ (n : Nat) (pid : JStr), rk pid ≤ n →
    ∀ (todo : List ManifestEntry), todo.Sublist m →
    ∀ (fuel : Nat) (st st' : CollectState), collectGo m fuel pid todo st = some st' →
    ∃ addIds addFiles,
      st'.ids = st.ids ++ addIds ∧ st'.files = st.files ++ addFiles ∧
      (∀ x, x ∈ addIds ↔ ChildSet m pid todo x) ∧
      (∀ e, e ∈ addFiles ↔ (e ∈ m ∧ e.type = EntryType.file ∧ ChildSet m pid todo e.id)) ∧
      addIds.Nodup ∧ addFiles.Nodup := by
  intro n
  induction n using Nat.strong_induction_on with
  | _ n ihn =>
  intro pid hpid todo
  induction todo with
  | nil =>
    intro _ fuel st st' h
    have hst : st = st' := by simpa [collectGo] using h
    refine ⟨[], [], ?_, ?_, ?_, ?_, List.nodup_nil, List.nodup_nil⟩
    · rw [← hst, List.append_nil]
    · rw [← hst, List.append_nil]
    · intro x; simp [childSet_nil]
    · intro e; simp [childSet_nil]
  | cons e rest ihrest =>
    intro hsub fuel st st' h
    have hem : e ∈ m := hsub.subset (List.mem_cons_self e rest)
    have hrsub : rest.Sublist m := (List.sublist_cons_self e rest).trans hsub
    have henodup : e ∉ rest := (List.nodup_cons.mp (hsub.nodup (nodup_entries HN))).1
    rw [collectGo.eq_def] at h
    simp only [] at h
    by_cases hpar : e.parent = some pid
    · rw [if_pos hpar] at h
      by_cases hty : e.type = EntryType.file
      · rw [if_pos hty] at h
        obtain ⟨A, F, hids, hfiles, hmemA, hmemF, hndA, hndF⟩ :=
          ihrest hrsub fuel ⟨st.ids ++ [e.id], st.files ++ [e]⟩ st' h
        refine ⟨e.id :: A, e :: F, ?_, ?_, ?_, ?_, ?_, ?_⟩
        · rw [hids]; simp
        · rw [hfiles]; simp
        · intro x
          rw [List.mem_cons, childSet_cons, hmemA x]
          constructor
          · rintro (rfl | hcs)
            · exact Or.inl ⟨hpar, Reaches.refl⟩
            · exact Or.inr hcs
          · rintro (⟨_, hr⟩ | hcs)
            · exact Or.inl (file_reaches_self HN HP hem hty hr)
            · exact Or.inr hcs
        · intro f
          rw [List.mem_cons, hmemF f]
          constructor
          · rintro (rfl | ⟨hfm, hff, hcs⟩)
            · exact ⟨hem, hty, childSet_cons.mpr (Or.inl ⟨hpar, Reaches.refl⟩)⟩
            · exact ⟨hfm, hff, childSet_cons.mpr (Or.inr hcs)⟩
          · rintro ⟨hfm, hff, hcs⟩
            rcases childSet_cons.mp hcs with ⟨_, hr⟩ | hcs'
            · exact Or.inl (nodup_id_unique HN hfm hem (file_reaches_self HN HP hem hty hr))
            · exact Or.inr ⟨hfm, hff, hcs'⟩
        · rw [List.nodup_cons]
          refine ⟨?_, hndA⟩
          intro hmem
          obtain ⟨g, hgrest, hgp, hgr⟩ := (hmemA e.id).mp hmem
          have hgm : g ∈ m := hrsub.subset hgrest
          have hgne : e ≠ g := fun hc => henodup (hc ▸ hgrest)
          exact sibling_subtrees_disjoint HN HA hem hgm hgne hpar hgp Reaches.refl hgr
        · rw [List.nodup_cons]
          refine ⟨?_, hndF⟩
          intro hmem
          obtain ⟨_, _, g, hgrest, hgp, hgr⟩ := (hmemF e).mp hmem
          have hgm : g ∈ m := hrsub.subset hgrest
          have hgne : e ≠ g := fun hc => henodup (hc ▸ hgrest)
          exact sibling_subtrees_disjoint HN HA hem hgm hgne hpar hgp Reaches.refl hgr
      · rw [if_neg hty] at h
        have hfolder := entryType_folder_of_not_file hty
        by_cases hfz : fuel = 0
        · rw [dif_pos hfz] at h; simp at h
        · rw [dif_neg hfz] at h
          cases hinner : collectGo m (fuel - 1) e.id m ⟨st.ids ++ [e.id], st.files⟩ with
          | none => rw [hinner] at h; simp at h
          | some st2 =>
            rw [hinner] at h
            have hrk : rk e.id < n := lt_of_lt_of_le (HA e hem pid hpar) hpid
            obtain ⟨B, G, hids2, hfiles2, hmemB, hmemG, hndB, hndG⟩ :=
              ihn (rk e.id) hrk e.id le_rfl m (List.Sublist.refl m) (fuel - 1)
                ⟨st.ids ++ [e.id], st.files⟩ st2 hinner
            obtain ⟨A, F, hids3, hfiles3, hmemA, hmemF, hndA, hndF⟩ :=
              ihrest hrsub fuel st2 st' h
            refine ⟨e.id :: (B ++ A), G ++ F, ?_, ?_, ?_, ?_, ?_, ?_⟩
            · rw [hids3, hids2]; simp
            · rw [hfiles3, hfiles2]; simp
            · intro x
              rw [List.mem_cons, List.mem_append, hmemB x, hmemA x, childSet_cons]
              constructor
              · rintro (rfl | hB | hA)
                · exact Or.inl ⟨hpar, Reaches.refl⟩
                · exact Or.inl ⟨hpar, reaches_iff_childset.mpr (Or.inr hB)⟩
                · exact Or.inr hA
              · rintro (⟨_, hr⟩ | hA)
                · rcases reaches_iff_childset.mp hr with rfl | hB
                  · exact Or.inl rfl
                  · exact Or.inr (Or.inl hB)
                · exact Or.inr (Or.inr hA)
            · intro f
              rw [List.mem_append, hmemG f, hmemF f]
              constructor
              · rintro (⟨hfm, hff, hcs⟩ | ⟨hfm, hff, hcs⟩)
                · exact ⟨hfm, hff, childSet_cons.mpr (Or.inl ⟨hpar,
                    reaches_iff_childset.mpr (Or.inr hcs)⟩)⟩
                · exact ⟨hfm, hff, childSet_cons.mpr (Or.inr hcs)⟩
              · rintro ⟨hfm, hff, hcs⟩
                rcases childSet_cons.mp hcs with ⟨_, hr⟩ | hcs'
                · rcases reaches_iff_childset.mp hr with hfid | hB
                  · have hfe : f = e := nodup_id_unique HN hfm hem hfid
                    have hef : e.type = EntryType.file := hfe ▸ hff
                    rw [hfolder] at hef
                    exact absurd hef (by decide)
                  · exact Or.inl ⟨hfm, hff, hB⟩
                · exact Or.inr ⟨hfm, hff, hcs'⟩
            · rw [List.nodup_cons, List.mem_append, List.nodup_append]
              refine ⟨?_, hndB, hndA, ?_⟩
              · rintro (hB | hA)
                · obtain ⟨g, hg, hgp, hgr⟩ := (hmemB e.id).mp hB
                  exact not_reaches_of_child HA hg hgp hgr
                · obtain ⟨g, hgrest, hgp, hgr⟩ := (hmemA e.id).mp hA
                  have hgm : g ∈ m := hrsub.subset hgrest
                  have hgne : e ≠ g := fun hc => henodup (hc ▸ hgrest)
                  exact sibling_subtrees_disjoint HN HA hem hgm hgne hpar hgp Reaches.refl hgr
              · intro x hxB hxA
                obtain hB := (hmemB x).mp hxB
                obtain ⟨g, hgrest, hgp, hgr⟩ := (hmemA x).mp hxA
                have hgm : g ∈ m := hrsub.subset hgrest
                have hgne : e ≠ g := fun hc => henodup (hc ▸ hgrest)
                exact sibling_subtrees_disjoint HN HA hem hgm hgne hpar hgp
                  (reaches_iff_childset.mpr (Or.inr hB)) hgr
            · rw [List.nodup_append]
              refine ⟨hndG, hndF, ?_⟩
              intro f hfG hfF
              obtain ⟨hfm, hff, hcsB⟩ := (hmemG f).mp hfG
              obtain ⟨_, _, g, hgrest, hgp, hgr⟩ := (hmemF f).mp hfF
              have hgm : g ∈ m := hrsub.subset hgrest
              have hgne : e ≠ g := fun hc => henodup (hc ▸ hgrest)
              exact sibling_subtrees_disjoint HN HA hem hgm hgne hpar hgp
                (reaches_iff_childset.mpr (Or.inr hcsB)) hgr
    · rw [if_neg hpar] at h
      obtain ⟨A, F, hids, hfiles, hmemA, hmemF, hndA, hndF⟩ := ihrest hrsub fuel st st' h
      refine ⟨A, F, hids, hfiles, ?_, ?_, hndA, hndF⟩
      · intro x
        rw [hmemA x, childSet_cons]
        exact ⟨Or.inr, fun hor => hor.resolve_left (fun hand => hpar hand.1)⟩
      · intro f
        rw [hmemF f]
        constructor
        · rintro ⟨hfm, hff, hcs⟩; exact ⟨hfm, hff, childSet_cons.mpr (Or.inr hcs)⟩
        · rintro ⟨hfm, hff, hcs⟩
          rcases childSet_cons.mp hcs with ⟨hp, _⟩ | h'
          · exact absurd hp hpar
          · exact ⟨hfm, hff, h'⟩

theorem collectGo_nil (m : Manifest) (fuel : Nat) (pid : JStr) (st : CollectState) :
    collectGo m fuel pid [] st = some st := by
  simp [collectGo]

theorem collectGo_cons_skip (m : Manifest) (fuel : Nat) (pid : JStr) (e : ManifestEntry)
    (rest : List ManifestEntry) (st : CollectState) (h : ¬ e.parent = some pid) :
    collectGo m fuel pid (e :: rest) st = collectGo m fuel pid rest st := by
  conv_lhs => rw [collectGo.eq_def]
  simp only []
  rw [if_neg h]

theorem collectGo_cons_file (m : Manifest) (fuel : Nat) (pid : JStr) (e : ManifestEntry)
    (rest : List ManifestEntry) (st : CollectState) (hp : e.parent = some pid)
    (ht : e.type = EntryType.file) :
    collectGo m fuel pid (e :: rest) st
      = collectGo m fuel pid rest ⟨st.ids ++ [e.id], st.files ++ [e]⟩ := by
  conv_lhs => rw [collectGo.eq_def]
  simp only []
  rw [if_pos hp, if_pos ht]

theorem collectGo_cons_folder_zero (m : Manifest) (pid : JStr) (e : ManifestEntry)
    (rest : List ManifestEntry) (st : CollectState) (hp : e.parent = some pid)
    (ht : ¬ e.type = EntryType.file) :
    collectGo m 0 pid (e :: rest) st = none := by
  conv_lhs => rw [collectGo.eq_def]
  simp only []
  rw [if_pos hp, if_neg ht]
  exact dif_pos trivial

theorem collectGo_cons_folder_none (m : Manifest) (fuel : Nat) (pid : JStr)
    (e : ManifestEntry) (rest : List ManifestEntry) (st : CollectState)
    (hp : e.parent = some pid) (ht : ¬ e.type = EntryType.file) (hfz : ¬ fuel = 0)
    (hin : collectGo m (fuel - 1) e.id m ⟨st.ids ++ [e.id], st.files⟩ = none) :
    collectGo m fuel pid (e :: rest) st = none := by
  conv_lhs => rw [collectGo.eq_def]
  simp only []
  rw [if_pos hp, if_neg ht, dif_neg hfz, hin]

/-- On an acyclic manifest, `rk pid` units of fuel are always enough for the
descendant walk: the source recursion terminates. -/
theorem collectGo_total {m : Manifest} {rk : JStr → Nat} (HA : AcyclicRank m rk) :
    ∀ (n : Nat) (pid : JStr), rk pid ≤ n →
    ∀ (todo : List ManifestEntry), (∀ e ∈ todo, e ∈ m) →
    ∀ (fuel : Nat), n ≤ fuel →
    ∀ st, ∃ st', collectGo m fuel pid todo st = some st' := by
  intro n
  induction n using Nat.strong_induction_on with
  | _ n ihn =>
  intro pid hpid todo
  induction todo with
  | nil => intro _ fuel _ st; exact ⟨st, collectGo_nil m fuel pid st⟩
  | cons e rest ihrest =>
    intro hsub fuel hfuel st
    have hem : e ∈ m := hsub e (List.mem_cons_self e rest)
    have hrsub : ∀ f ∈ rest, f ∈ m := fun f hf => hsub f (List.mem_cons_of_mem e hf)
    by_cases hpar : e.parent = some pid
    · by_cases hty : e.type = EntryType.file
      · obtain ⟨st', hst'⟩ := ihrest hrsub fuel hfuel ⟨st.ids ++ [e.id], st.files ++ [e]⟩
        exact ⟨st', (collectGo_cons_file m fuel pid e rest st hpar hty).trans hst'⟩
      · have hlt : rk e.id < rk pid := HA e hem pid hpar
        have hfz : ¬ fuel = 0 := by omega
        obtain ⟨st2, hst2⟩ := ihn (rk e.id) (by omega) e.id le_rfl m (fun f hf => hf)
          (fuel - 1) (by omega) ⟨st.ids ++ [e.id], st.files⟩
        obtain ⟨st3, hst3⟩ := ihrest hrsub fuel hfuel st2
        refine ⟨st3, ?_⟩
        conv_lhs => rw [collectGo.eq_def]
        simp only []
        rw [if_pos hpar, if_neg hty, dif_neg hfz, hst2]
        exact hst3
    · obtain ⟨st', hst'⟩ := ihrest hrsub fuel hfuel st
      exact ⟨st', (collectGo_cons_skip m fuel pid e rest st hpar).trans hst'⟩

theorem filter_sublist_filter {α : Type} {p q : α → Bool}
    (himp : ∀ a, p a = true → q a = true) (l : List α) :
    List.Sublist (l.filter p) (l.filter q) := by
  induction l with
  | nil => exact List.Sublist.refl _
  | cons a t ih =>
    rw [List.filter_cons, List.filter_cons]
    by_cases hpa : p a = true
    · rw [if_pos hpa, if_pos (himp a hpa)]
      exact ih.cons₂ a
    · rw [if_neg hpa]
      by_cases hqa : q a = true
      · rw [if_pos hqa]; exact ih.cons a
      · rw [if_neg hqa]; exact ih

theorem filter_length_lt {α : Type} {p q : α → Bool} (l : List α)
    (himp : ∀ a, p a = true → q a = true) {g : α} (hg : g ∈ l)
    (hq : q g = true) (hp : ¬ p g = true) :
    (l.filter p).length < (l.filter q).length := by
  have hsub : List.Sublist (l.filter p) (l.filter q) := filter_sublist_filter himp l
  rcases Nat.lt_or_ge (l.filter p).length (l.filter q).length with h | h
  · exact h
  · have heq := hsub.eq_of_length (le_antisymm hsub.length_le h)
    have hmem : g ∈ l.filter p := heq ▸ List.mem_filter.mpr ⟨hg, hq⟩
    exact absurd (List.mem_filter.mp hmem).2 hp

theorem isDescendantOfF_succ (m : Manifest) (fuel : Nat) (eId aId : JStr) :
    isDescendantOfF m (fuel + 1) eId aId =
      match m.find? (fun e => e.id == eId) with
      | none => some false
      | some e =>
        match e.parent with
        | none => some false
        | some p => if p = aId then some true else isDescendantOfF m fuel p aId := rfl

/-- On an acyclic manifest the parent-chain walk terminates: two units of
fuel beyond the number of strictly-higher-ranked entries always suffice. -/
theorem isDescendantOf_total {m : Manifest} {rk : JStr → Nat} (HA : AcyclicRank m rk) :
    ∀ (n : Nat) (entryId ancestorId : JStr),
      (m.filter (fun e => decide (rk entryId < rk e.id))).length ≤ n →
      ∀ fuel, n + 2 ≤ fuel →
      ∃ b, isDescendantOfF m fuel entryId ancestorId = some b := by
  intro n
  induction n using Nat.strong_induction_on with
  | _ n ihn =>
  intro entryId ancestorId hcnt fuel hfuel
  obtain ⟨f1, rfl⟩ : ∃ f1, fuel = f1 + 1 := ⟨fuel - 1, by omega⟩
  cases hfind : m.find? (fun e => e.id == entryId) with
  | none => exact ⟨false, by rw [isDescendantOfF_succ, hfind]⟩
  | some e =>
    have hstep : isDescendantOfF m (f1 + 1) entryId ancestorId
        = match e.parent with
          | none => some false
          | some p => if p = ancestorId then some true
                      else isDescendantOfF m f1 p ancestorId := by
      rw [isDescendantOfF_succ, hfind]
    cases hpar : e.parent with
    | none => exact ⟨false, by rw [hstep, hpar]⟩
    | some p =>
      have hstep2 : isDescendantOfF m (f1 + 1) entryId ancestorId
          = if p = ancestorId then some true
            else isDescendantOfF m f1 p ancestorId := by
        rw [hstep, hpar]
      by_cases hpa : p = ancestorId
      · exact ⟨true, by rw [hstep2, if_pos hpa]⟩
      · rw [hstep2, if_neg hpa]
        have hem : e ∈ m := List.mem_of_find?_eq_some hfind
        have hid : e.id = entryId := by simpa using List.find?_some hfind
        have hrkstep : rk entryId < rk p := hid ▸ HA e hem p hpar
        cases hfind2 : m.find? (fun g => g.id == p) with
        | none =>
          obtain ⟨f2, rfl⟩ : ∃ f2, f1 = f2 + 1 := ⟨f1 - 1, by omega⟩
          exact ⟨false, by rw [isDescendantOfF_succ, hfind2]⟩
        | some g =>
          have hgm : g ∈ m := List.mem_of_find?_eq_some hfind2
          have hgid : g.id = p := by simpa using List.find?_some hfind2
          have hlt : (m.filter (fun f => decide (rk p < rk f.id))).length
              < (m.filter (fun f => decide (rk entryId < rk f.id))).length := by
            refine filter_length_lt m ?_ hgm ?_ ?_
            · intro a ha
              simp only [decide_eq_true_eq] at ha ⊢
              omega
            · simp only [decide_eq_true_eq, hgid]
              exact hrkstep
            · simp only [decide_eq_true_eq, hgid]
              omega
          exact ihn (n - 1) (by omega) p ancestorId (by omega) f1 (by omega)

/-! ### A parent-pointer cycle makes both recursions diverge -/

/-- Folder `a` whose parent pointer is `b`. -/
def entA : ManifestEntry :=
  { id := ['a'], name := ['a'], type := EntryType.folder, parent := some ['b'] }

/-- Folder `b` whose parent pointer is `a`: together with `entA` a 2-cycle. -/
def entB : ManifestEntry :=
  { id := ['b'], name := ['b'], type := EntryType.folder, parent := some ['a'] }

/-- A malformed manifest whose parent pointers form a cycle. -/
def cyclicManifest : Manifest := [entA, entB]

theorem cyclicManifest_no_rank : ¬ ∃ rk : JStr → Nat, AcyclicRank cyclicManifest rk := by
  rintro ⟨rk, h⟩
  have h1 := h entA (by simp [cyclicManifest]) ['b'] rfl
  have h2 := h entB (by simp [cyclicManifest]) ['a'] rfl
  simp only [entA, entB] at h1 h2
  omega

theorem collectGo_cycle : ∀ (fuel : Nat) (st : CollectState),
    collectGo cyclicManifest fuel ['a'] cyclicManifest st = none ∧
    collectGo cyclicManifest fuel ['b'] cyclicManifest st = none := by
  intro fuel
  induction fuel using Nat.strong_induction_on with
  | _ fuel ih =>
  intro st
  by_cases hfz : fuel = 0
  · subst hfz
    constructor
    · exact (collectGo_cons_skip cyclicManifest 0 ['a'] entA [entB] st (by decide)).trans
        (collectGo_cons_folder_zero cyclicManifest ['a'] entB [] st (by decide) (by decide))
    · exact collectGo_cons_folder_zero cyclicManifest ['b'] entA [entB] st
        (by decide) (by decide)
  · constructor
    · exact (collectGo_cons_skip cyclicManifest fuel ['a'] entA [entB] st (by decide)).trans
        (collectGo_cons_folder_none cyclicManifest fuel ['a'] entB [] st (by decide)
          (by decide) hfz ((ih (fuel - 1) (by omega) ⟨st.ids ++ [entB.id], st.files⟩).2))
    · exact collectGo_cons_folder_none cyclicManifest fuel ['b'] entA [entB] st (by decide)
        (by decide) hfz ((ih (fuel - 1) (by omega) ⟨st.ids ++ [entA.id], st.files⟩).1)

theorem isDescendantOfF_cycle : ∀ fuel : Nat,
    isDescendantOfF cyclicManifest fuel ['a'] ['z'] = none ∧
    isDescendantOfF cyclicManifest fuel ['b'] ['z'] = none := by
  intro fuel
  induction fuel with
  | zero => exact ⟨rfl, rfl⟩
  | succ f ih => exact ⟨ih.2, ih.1⟩

theorem entryType_file_of_not_folder {t : EntryType} (h : ¬ t = EntryType.folder) :
    t = EntryType.file := by
  cases t
  · rfl
  · exact absurd rfl h

theorem removeEntryF_eq_notfound {m : Manifest} {entryId : JStr} (fuel : Nat)
    (h : m.find? (fun e => e.id == entryId) = none) :
    removeEntryF m entryId fuel = some (m, []) := by
  simp [removeEntryF, h]

theorem removeEntryF_eq_folder {m : Manifest} {entryId : JStr} {entry : ManifestEntry}
    (fuel : Nat) (hfind : m.find? (fun e => e.id == entryId) = some entry)
    (hty : entry.type = EntryType.folder) :
    removeEntryF m entryId fuel
      = match collectGo m fuel entryId m ⟨[entryId], []⟩ with
        | none => none
        | some stF =>
          some (m.filter (fun e => !(stF.ids.contains e.id)), stF.files) := by
  simp [removeEntryF, hfind, hty]

theorem removeEntryF_eq_file {m : Manifest} {entryId : JStr} {entry : ManifestEntry}
    (fuel : Nat) (hfind : m.find? (fun e => e.id == entryId) = some entry)
    (hty : entry.type = EntryType.file) :
    removeEntryF m entryId fuel
      = some (m.filter (fun e => !(([entryId] : List JStr).contains e.id)), [entry]) := by
  simp [removeEntryF, hfind, hty]

theorem mem_filter_not_contains {m : Manifest} {ids : List JStr} {e : ManifestEntry} :
    e ∈ m.filter (fun e => !(ids.contains e.id)) ↔ (e ∈ m ∧ e.id ∉ ids) := by
  rw [List.mem_filter]
  simp [List.contains]

/-- C5: `removeEntry` on a well-formed manifest removes the entry with the
given id and, for a folder, all of its transitive descendants, leaving no
descendant id in the resulting manifest; it returns exactly the removed file
entries (a list without duplicates whose members are precisely the file-typed
removed entries — so a folder with N nested files yields exactly N entries,
stated as a permutation with any duplicate-free enumeration of them); a
missing id is a no-op returning the manifest unchanged and an empty
removed-files list, not an error; and on an acyclic manifest the operation
terminates (`rk entryId` fuel suffices). -/
theorem removeEntry_spec {m : Manifest} {rk : JStr → Nat}
    (HN : NoDupIds m) (HA : AcyclicRank m rk) (HP : ParentsAreFolders m) (entryId : JStr) :
    (m.find? (fun e => e.id == entryId) = none →
        ∀ fuel, removeEntryF m entryId fuel = some (m, [])) ∧
    (∀ entry, m.find? (fun e => e.id == entryId) = some entry →
        ∀ fuel res, removeEntryF m entryId fuel = some res →
        (∀ e, e ∈ res.1 ↔ (e ∈ m ∧ ¬ Reaches m entryId e.id)) ∧
        (∀ e, e ∈ res.2 ↔ (e ∈ m ∧ e.type = EntryType.file ∧ Reaches m entryId e.id)) ∧
        res.2.Nodup ∧
        (∀ L : List ManifestEntry, L.Nodup →
            (∀ e, e ∈ L ↔ (e ∈ m ∧ e.type = EntryType.file ∧ Reaches m entryId e.id)) →
            res.2.Perm L)) ∧
    (∀ fuel, rk entryId ≤ fuel → ∃ res, removeEntryF m entryId fuel = some res) := by
  refine ⟨fun h fuel => removeEntryF_eq_notfound fuel h, ?_, ?_⟩
  · intro entry hfind fuel res hres
    have hentm : entry ∈ m := List.mem_of_find?_eq_some hfind
    have hentid : entry.id = entryId := by simpa using List.find?_some hfind
    by_cases hty : entry.type = EntryType.folder
    · rw [removeEntryF_eq_folder fuel hfind hty] at hres
      cases hcol : collectGo m fuel entryId m ⟨[entryId], []⟩ with
      | none => rw [hcol] at hres; simp at hres
      | some stF =>
        rw [hcol] at hres
        simp only [Option.some.injEq] at hres
        subst hres
        obtain ⟨addIds, addFiles, hids, hfiles, hmemI, hmemF, hndI, hndF⟩ :=
          collectGo_spec HN HA HP (rk entryId) entryId le_rfl m (List.Sublist.refl m)
            fuel ⟨[entryId], []⟩ stF hcol
        have hids' : stF.ids = [entryId] ++ addIds := hids
        have hfiles' : stF.files = addFiles := hfiles
        have hidsall : ∀ x, x ∈ stF.ids ↔ Reaches m entryId x := by
          intro x
          rw [hids', reaches_iff_childset]
          rw [List.mem_append, List.mem_singleton, hmemI x]
        have hfilesall : ∀ f, f ∈ stF.files ↔
            (f ∈ m ∧ f.type = EntryType.file ∧ Reaches m entryId f.id) := by
          intro f
          rw [hfiles', hmemF f]
          constructor
          · rintro ⟨hfm, hff, hcs⟩
            exact ⟨hfm, hff, reaches_iff_childset.mpr (Or.inr hcs)⟩
          · rintro ⟨hfm, hff, hr⟩
            rcases reaches_iff_childset.mp hr with hfe | hcs
            · have hfent : f = entry := nodup_id_unique HN hfm hentm (by rw [hfe, hentid])
              rw [hfent, hty] at hff
              exact absurd hff (by decide)
            · exact ⟨hfm, hff, hcs⟩
        have hnd2 : stF.files.Nodup := by rw [hfiles']; exact hndF
        refine ⟨?_, hfilesall, hnd2, ?_⟩
        · intro e
          rw [mem_filter_not_contains]
          constructor
          · rintro ⟨hm, hnotin⟩
            exact ⟨hm, fun hr => hnotin ((hidsall e.id).mpr hr)⟩
          · rintro ⟨hm, hnr⟩
            exact ⟨hm, fun hin => hnr ((hidsall e.id).mp hin)⟩
        · intro L hLnd hLmem
          rw [List.perm_ext_iff_of_nodup hnd2 hLnd]
          intro a
          rw [hfilesall a, hLmem a]
    · have hfile := entryType_file_of_not_folder hty
      rw [removeEntryF_eq_file fuel hfind hfile] at hres
      simp only [Option.some.injEq] at hres
      subst hres
      have hreach : ∀ x, Reaches m entryId x ↔ x = entryId := by
        intro x
        constructor
        · intro hr
          have hr' : Reaches m entry.id x := by rw [hentid]; exact hr
          rw [← hentid]
          exact file_reaches_self HN HP hentm hfile hr'
        · rintro rfl; exact Reaches.refl
      have hchar : ∀ f : ManifestEntry, f ∈ [entry] ↔
          (f ∈ m ∧ f.type = EntryType.file ∧ Reaches m entryId f.id) := by
        intro f
        rw [List.mem_singleton]
        constructor
        · rintro rfl
          exact ⟨hentm, hfile, (hreach _).mpr hentid⟩
        · rintro ⟨hfm, hff, hr⟩
          exact nodup_id_unique HN hfm hentm (by rw [(hreach f.id).mp hr, hentid])
      refine ⟨?_, hchar, List.nodup_singleton entry, ?_⟩
      · intro e
        rw [mem_filter_not_contains]
        simp only [List.mem_singleton]
        constructor
        · rintro ⟨hm, hne⟩
          exact ⟨hm, fun hr => hne ((hreach e.id).mp hr)⟩
        · rintro ⟨hm, hnr⟩
          exact ⟨hm, fun heq => hnr ((hreach e.id).mpr heq)⟩
      · intro L hLnd hLmem
        rw [List.perm_ext_iff_of_nodup (List.nodup_singleton entry) hLnd]
        intro a
        rw [hchar a, hLmem a]
  · intro fuel hfe
    cases hfind : m.find? (fun e => e.id == entryId) with
    | none => exact ⟨(m, []), removeEntryF_eq_notfound fuel hfind⟩
    | some entry =>
      by_cases hty : entry.type = EntryType.folder
      · obtain ⟨stF, hstF⟩ := collectGo_total HA (rk entryId) entryId le_rfl m
          (fun f hf => hf) fuel hfe ⟨[entryId], []⟩
        refine ⟨(m.filter (fun e => !(stF.ids.contains e.id)), stF.files), ?_⟩
        rw [removeEntryF_eq_folder fuel hfind hty, hstF]
      · exact ⟨_, removeEntryF_eq_file fuel hfind (entryType_file_of_not_folder hty)⟩

/-- C10: on every manifest whose parent pointers are acyclic (witnessed by a
rank certificate), both the recursive descendant collection inside
`removeEntry` and the parent-chain walk in `isDescendantOf` terminate (some
finite fuel yields a result); and termination is not guaranteed under a
parent-pointer cycle: the two-folder cycle `a ↔ b` admits no rank
certificate, and on it both recursions exhaust every amount of fuel. -/
theorem descendant_recursion_termination :
    (∀ (m : Manifest) (rk : JStr → Nat), AcyclicRank m rk →
        ∀ (pid : JStr) (st : CollectState),
        ∃ fuel st', collectGo m fuel pid m st = some st') ∧
    (∀ (m : Manifest) (rk : JStr → Nat), AcyclicRank m rk →
        ∀ entryId ancestorId : JStr,
        ∃ fuel b, isDescendantOfF m fuel entryId ancestorId = some b) ∧
    (¬ ∃ rk : JStr → Nat, AcyclicRank cyclicManifest rk) ∧
    (∀ (fuel : Nat) (st : CollectState),
        collectGo cyclicManifest fuel ['a'] cyclicManifest st = none) ∧
    (∀ fuel : Nat, isDescendantOfF cyclicManifest fuel ['a'] ['z'] = none) := by
  refine ⟨?_, ?_, cyclicManifest_no_rank, fun fuel st => (collectGo_cycle fuel st).1,
    fun fuel => (isDescendantOfF_cycle fuel).1⟩
  · rintro m rk HA pid st
    obtain ⟨st', h⟩ :=
      collectGo_total HA (rk pid) pid le_rfl m (fun f hf => hf) (rk pid) le_rfl st
    exact ⟨rk pid, st', h⟩
  · rintro m rk HA eId aId
    obtain ⟨b, h⟩ := isDescendantOf_total HA
      ((m.filter (fun e => decide (rk eId < rk e.id))).length) eId aId le_rfl
      ((m.filter (fun e => decide (rk eId < rk e.id))).length + 2) le_rfl
    exact ⟨_, b, h⟩

/-! ### A concrete well-formed manifest used by the closed-input checks -/

/-- Root folder `r`. -/
def entRoot : ManifestEntry :=
  { id := ['r'], name := ['r'], type := EntryType.folder, parent := none }

/-- File `f` inside folder `r`. -/
def entF1 : ManifestEntry :=
  { id := ['f'], name := ['f'], type := EntryType.file, parent := some ['r'],
    file_uid := some ['u'], size := some 5, chunk_count := some 1,
    mime_type := some ['t'] }

/-- Subfolder `s` inside folder `r`. -/
def entSub : ManifestEntry :=
  { id := ['s'], name := ['s'], type := EntryType.folder, parent := some ['r'] }

/-- File `h` nested inside subfolder `s`. -/
def entF3 : ManifestEntry :=
  { id := ['h'], name := ['h'], type := EntryType.file, parent := some ['s'],
    file_uid := some ['v'], size := some 7, chunk_count := some 1,
    mime_type := some ['t'] }

/-- A file outside the `r` tree, at the root level. -/
def entOut : ManifestEntry :=
  { id := ['o'], name := ['o'], type := EntryType.file, parent := none,
    file_uid := some ['w'], size := some 3, chunk_count := some 1,
    mime_type := some ['t'] }

/-- A small well-formed manifest: folder `r` containing file `f` and subfolder
`s` (which contains file `h`), plus an unrelated root-level file `o`. -/
def sampleManifest : Manifest := [entRoot, entF1, entSub, entF3, entOut]

/-- A rank certificate for `sampleManifest`. -/
def sampleRank : JStr → Nat := fun s => if s = ['r'] then 2 else if s = ['s'] then 1 else 0

instance (m : Manifest) : Decidable (NoDupIds m) := by
  unfold NoDupIds; infer_instance

instance (m : Manifest) : Decidable (ParentsAreFolders m) := by
  unfold ParentsAreFolders; infer_instance

theorem sampleManifest_acyclic : AcyclicRank sampleManifest sampleRank := by
  intro e he p hp
  simp only [sampleManifest, List.mem_cons, List.not_mem_nil, or_false] at he
  rcases he with rfl | rfl | rfl | rfl | rfl
  · simp [entRoot] at hp
  · simp only [entF1] at hp
    have hp' := Option.some.inj hp
    subst hp'
    decide
  · simp only [entSub] at hp
    have hp' := Option.some.inj hp
    subst hp'
    decide
  · simp only [entF3] at hp
    have hp' := Option.some.inj hp
    subst hp'
    decide
  · simp [entOut] at hp

/-- Closed-input checks for `removeEntry_spec`: on the concrete sample
manifest, removing the root folder succeeds with fuel 2, and removing a
nonexistent id is a no-op. -/
theorem removeEntry_spec_witness :
    (∃ res, removeEntryF sampleManifest ['r'] 2 = some res) ∧
    removeEntryF sampleManifest ['z'] 0 = some (sampleManifest, []) :=
  ⟨(removeEntry_spec (by decide) sampleManifest_acyclic (by decide) ['r']).2.2 2 (by decide),
   (removeEntry_spec (by decide) sampleManifest_acyclic (by decide) ['z']).1 (by decide) 0⟩

/-- Closed-input checks for `descendant_recursion_termination`: on the
concrete acyclic sample manifest both recursions terminate. -/
theorem descendant_recursion_termination_witness :
    (∃ fuel st', collectGo sampleManifest fuel ['r'] sampleManifest ⟨[], []⟩ = some st') ∧
    (∃ fuel b, isDescendantOfF sampleManifest fuel ['h'] ['r'] = some b) :=
  ⟨descendant_recursion_termination.1 sampleManifest sampleRank sampleManifest_acyclic
      ['r'] ⟨[], []⟩,
   descendant_recursion_termination.2.1 sampleManifest sampleRank sampleManifest_acyclic
      ['h'] ['r']⟩

/-! ## Manifest mutation serialization (part_002 `updateManifest`) -/

/-- An execution trace of the `updateManifest` promise chain (part_002 lines
169-172 and 416-480): request `k` is the `k`-th `updateManifest` call in
request order.  `begins k` is the instant body `k` resumes after
`await previousUpdate`; `finishes k` is the instant body `k` completes
(success or failure); `resolves k` is the instant promise `k` resolves;
`outcomeOk k` records whether the body succeeded. -/
structure ChainTrace where
  begins : Nat → Nat
  finishes : Nat → Nat
  resolves : Nat → Nat
  outcomeOk : Nat → Bool

/-- The discipline the code imposes on every trace:
* a body spans from its begin to its finish;
* the `finally` (lines 475-477) resolves promise `k` exactly when body `k`
  completes, whether it succeeded or threw;
* call `k+1` captured promise `k` as `previousUpdate` before installing its
  own promise (lines 421-425), and its body runs only after
  `await previousUpdate` completes (line 429), i.e. strictly after promise
  `k` resolved. -/
def FollowsChainProtocol (t : ChainTrace) : Prop :=
  (∀ k, t.begins k ≤ t.finishes k) ∧
  (∀ k, t.resolves k = t.finishes k) ∧
  (∀ k, t.resolves k < t.begins (k + 1))

/-- All manifest writes are totally ordered in request order: a later-requested
body begins only after every earlier body's result is known. -/
def SerializedFIFO (t : ChainTrace) : Prop :=
  ∀ j k, j < k → t.finishes j < t.begins k

/-- No two encrypt-and-write bodies overlap: exactly one writer at a time. -/
def NoOverlap (t : ChainTrace) : Prop :=
  ∀ j k, j ≠ k → t.finishes j < t.begins k ∨ t.finishes k < t.begins j

/-- C6: in every trace obeying the promise-chain discipline of
`updateManifest`, the later-requested mutation begins only after the earlier
one's result (success or failure) is known, so all manifest encrypt-and-write
bodies are totally ordered in request order and no two of them overlap. -/
theorem updateManifest_serialized (t : ChainTrace) (h : FollowsChainProtocol t) :
    SerializedFIFO t ∧ NoOverlap t := by
  obtain ⟨hbody, hfin, hawait⟩ := h
  have hserial : SerializedFIFO t := by
    intro j k hjk
    induction k with
    | zero => omega
    | succ k ih =>
      have hstep : t.finishes k < t.begins (k + 1) := by
        have h1 := hawait k
        have h2 := hfin k
        omega
      by_cases hj : j = k
      · subst hj; exact hstep
      · have h1 := ih (by omega)
        have h2 := hbody k
        omega
  refine ⟨hserial, ?_⟩
  intro j k hne
  rcases Nat.lt_or_ge j k with h | h
  · exact Or.inl (hserial j k h)
  · exact Or.inr (hserial k j (by omega))

/-- Closed-input check for `updateManifest_serialized`: a concrete protocol
trace is serialized. -/
theorem updateManifest_serialized_witness :
    SerializedFIFO ⟨fun k => 3 * k, fun k => 3 * k + 1, fun k => 3 * k + 1, fun _ => true⟩ ∧
    NoOverlap ⟨fun k => 3 * k, fun k => 3 * k + 1, fun k => 3 * k + 1, fun _ => true⟩ :=
  updateManifest_serialized
    ⟨fun k => 3 * k, fun k => 3 * k + 1, fun k => 3 * k + 1, fun _ => true⟩
    ⟨fun k => by show 3 * k ≤ 3 * k + 1; omega,
     fun k => rfl,
     fun k => by show 3 * k + 1 < 3 * (k + 1); omega⟩

/-! ## Failed manifest persist leaves the displayed manifest unchanged -/

/-- The state around one `updateManifest` body: the encrypted manifest stored
in the vaults row, and the in-memory manifest (`manifestRef.current`, which
mirrors the displayed React state). -/
structure SessionState where
  serverCipher : Bytes
  memManifest : Manifest
deriving DecidableEq

/-- `JSON.stringify` + `TextEncoder.encode` of the manifest: each entry
contributes its id's character codes plus a separator byte. -/
def serializeManifest (man : Manifest) : Bytes :=
  (man.map (fun e => e.id.map Char.toNat ++ [44])).flatten

/-- part_002 `updateManifest` body (lines 427-477), after the queue wait:
abort if locked, apply the updater to the current in-memory manifest,
encrypt it, and write it to the vaults row; only after a successful write
does the code update `manifestRef.current` and dispatch `UPDATE_MANIFEST`
(lines 472-474) — the error path throws before either.  `key` models
`encryptionKeyRef.current`, `nonce` the random nonce drawn inside `encrypt`,
and `persistOk` the Supabase update result. -/
def updateManifestRun (st : SessionState) (key : Option Bytes) (nonce : Bytes)
    (updater : Manifest → Manifest) (persistOk : Bool) :
    Except String SessionState :=
  match key with
  | none => Except.error "Vault not unlocked"
  | some k =>
    if persistOk then
      Except.ok ⟨encrypt (serializeManifest (updater st.memManifest)) k nonce,
        updater st.memManifest⟩
    else Except.error "Manifest update failed"

/-- The state the client holds after the run: the old state unless the run
returned successfully (the ref assignment and the dispatch sit on the
success path only). -/
def displayedAfter (st : SessionState) (r : Except String SessionState) : SessionState :=
  match r with
  | Except.ok st' => st'
  | Except.error _ => st

/-- C7: when persisting the encrypted manifest fails, `updateManifest` aborts
with an error and the in-memory manifest — the displayed state — is left
exactly at its previous value; on a successful persist the displayed
manifest becomes the updated one (showing the error branch is the only
difference). -/
theorem updateManifest_failed_persist :
    (∀ (st : SessionState) (k nonce : Bytes) (updater : Manifest → Manifest),
        (∃ e, updateManifestRun st (some k) nonce updater false = Except.error e) ∧
        displayedAfter st (updateManifestRun st (some k) nonce updater false) = st) ∧
    (∀ (st : SessionState) (k nonce : Bytes) (updater : Manifest → Manifest),
        (displayedAfter st (updateManifestRun st (some k) nonce updater true)).memManifest
          = updater st.memManifest) := by
  constructor
  · intro st k nonce updater
    exact ⟨⟨"Manifest update failed", rfl⟩, rfl⟩
  · intro st k nonce updater
    rfl

/-! ## unlock failure collapse (part_002 `unlockVault`) -/

/-- A vaults-table row as fetched during unlock. -/
structure VaultRow where
  manifestCipher : Bytes
  storageUsed : Nat
  storageLimit : Nat
  burnAt : Option JStr

/-- The external world one unlock call observes: `fetchRow` is the
RLS-authorized select by vault uid, where `none` covers both "row not found"
and "authorization rejected" (the client sees a PostgREST error object either
way, part_002 lines 303-318); `parse` models `JSON.parse` of the decrypted
manifest bytes (a JS runtime facility external to the repository), with
`none` for a parse failure — thrown inside the same try/catch as
decryption. -/
structure UnlockEnv where
  fetchRow : JStr → Option VaultRow
  parse : Bytes → Option Manifest

/-- Modelled from the spec: `deriveKeys` (spec §4.1) wraps the external
Argon2id + crypto_kdf primitives; modelled as a deterministic map from the
seed phrase to a key and a vault uid. -/
def deriveKeysModel (seed : JStr) : Bytes × JStr :=
  (seed.map Char.toNat ++ List.replicate 32 0, 'v' :: seed)

/-- What the caller of `unlockVault` can observe: the returned boolean and
either the unlocked payload or the surfaced error string. -/
inductive UnlockOutcome where
  | unlocked (vaultUid : JStr) (manifest : Manifest) (storageUsed : Nat) (returned : Bool)
  | failed (errorMsg : String) (returned : Bool)
deriving DecidableEq

/-- The try-block of part_002 `unlockVault` (lines 295-406): derive keys,
fetch the row by uid, decrypt and parse the manifest; `none` is any thrown
failure — fetch error or missing row (line 317), decryption failure
(line 338), or a parse failure. -/
def unlockTry (env : UnlockEnv) (seed : JStr) : Option (JStr × Manifest × Nat) :=
  match env.fetchRow (deriveKeysModel seed).2 with
  | none => none
  | some row =>
    match decrypt row.manifestCipher (deriveKeysModel seed).1 with
    | Except.error _ => none
    | Except.ok bytes =>
      match env.parse bytes with
      | none => none
      | some manifest => some ((deriveKeysModel seed).2, manifest, row.storageUsed)

/-- part_002 `unlockVault` (lines 291-414): run the try block; on success
dispatch UNLOCK_SUCCESS and return true, and on any failure the outer catch
(lines 407-411) dispatches UNLOCK_ERROR with the constant message
`"Unable to access vault"` and returns false. -/
def unlockVault (env : UnlockEnv) (seed : JStr) : UnlockOutcome :=
  match unlockTry env seed with
  | some r => UnlockOutcome.unlocked r.1 r.2.1 r.2.2 true
  | none => UnlockOutcome.failed "Unable to access vault" false

/-- Whether an unlock outcome is a failure. -/
def unlockFailed : UnlockOutcome → Bool
  | UnlockOutcome.failed _ _ => true
  | UnlockOutcome.unlocked _ _ _ _ => false

/-- C8: `unlock` collapses every failure mode — row not found, authorization
rejected, manifest decryption or parse failure — into one identical generic
outcome: every failing run yields literally
`failed "Unable to access vault" false`, so any two failing runs (e.g. a
wrong seed phrase versus a nonexistent vault id) are observably identical and
reveal nothing about whether the vault exists. -/
theorem unlock_failure_collapse :
    (∀ (env : UnlockEnv) (seed : JStr), unlockFailed (unlockVault env seed) = true →
        unlockVault env seed = UnlockOutcome.failed "Unable to access vault" false) ∧
    (∀ (env₁ : UnlockEnv) (seed₁ : JStr) (env₂ : UnlockEnv) (seed₂ : JStr),
        unlockFailed (unlockVault env₁ seed₁) = true →
        unlockFailed (unlockVault env₂ seed₂) = true →
        unlockVault env₁ seed₁ = unlockVault env₂ seed₂) := by
  have hgen : ∀ (env : UnlockEnv) (seed : JStr), unlockFailed (unlockVault env seed) = true →
      unlockVault env seed = UnlockOutcome.failed "Unable to access vault" false := by
    intro env seed h
    unfold unlockVault at h ⊢
    cases hu : unlockTry env seed with
    | none => rfl
    | some r =>
      rw [hu] at h
      simp [unlockFailed] at h
  exact ⟨hgen, fun env₁ seed₁ env₂ seed₂ h₁ h₂ =>
    (hgen env₁ seed₁ h₁).trans (hgen env₂ seed₂ h₂).symm⟩

/-- Closed-input check for `unlock_failure_collapse`: unlocking a nonexistent
vault and unlocking an existing vault with the wrong seed phrase (its cipher
was produced under another seed's key) are observably identical. -/
theorem unlock_failure_collapse_witness :
    unlockVault ⟨fun _ => none, fun _ => some []⟩ ['x']
      = unlockVault
          ⟨fun uid => if uid = ('v' :: ['y'] : JStr) then
              some ⟨encrypt (serializeManifest []) (deriveKeysModel ['q']).1
                (List.replicate 24 0), 0, 0, none⟩
            else none,
           fun _ => some []⟩ ['y'] :=
  unlock_failure_collapse.2 ⟨fun _ => none, fun _ => some []⟩ ['x']
    ⟨fun uid => if uid = ('v' :: ['y'] : JStr) then
        some ⟨encrypt (serializeManifest []) (deriveKeysModel ['q']).1
          (List.replicate 24 0), 0, 0, none⟩
      else none,
     fun _ => some []⟩ ['y'] (by decide) (by decide)

end Trove
